import Mathlib

/-!
# Verification of the fishviz data-transformation pipeline

Shallow embedding of `data_parser.py` (genotype loading, Format A loading,
Format B loading, resampling) and proofs about the spec's claims.

Conventions of the embedding:
* pandas DataFrames become `List` of structures; floats become `ℚ`;
* `sort_values` is modeled as a stable sort by the given key;
* operations that raise Python exceptions (pandas length-mismatch on column
  assignment, numpy `IndexError` on an empty `np.where` result, failed
  `astype(int)`) make the embedded function return `none`;
* timestamps are modeled as a calendar date (an integer count of days since
  1970-01-01, proleptic Gregorian, which is what `pd.to_datetime` produces)
  plus a time of day in hours, so an absolute time is `24 * date + tod` hours.
-/

namespace Fishviz

/- The Batteries rational operations are `@[irreducible]`, which blocks
`decide` on concrete tables; re-expose them for evaluation. -/
attribute [local semireducible] Rat.add Rat.sub Rat.mul Rat.inv Rat.ofScientific

/-- One row of the tidy activity table produced by `load_data` / `resample`:
columns `fish`, `genotype`, `day`, `light`, `zeit`, `zeit_ind`, `activity`. -/
structure Row where
  fish : Nat
  genotype : String
  day : Int
  light : Bool
  zeit : ℚ
  zeit_ind : Nat
  activity : ℚ
deriving DecidableEq

/-- All columns of a row except the per-individual index `zeit_ind`. -/
def Row.strip (r : Row) : Nat × String × Int × Bool × ℚ × ℚ :=
  (r.fish, r.genotype, r.day, r.light, r.zeit, r.activity)

/-- `df['zeit_ind'] = i` for one row. -/
def Row.setInd (r : Row) (i : Nat) : Row := { r with zeit_ind := i }

/-- Comparator of `df.sort_values(by=['fish', 'zeit'])` (modeled as a stable
sort on the key (fish, zeit)). -/
def KeyLe (r s : Row) : Prop :=
  r.fish < s.fish ∨ (r.fish = s.fish ∧ r.zeit ≤ s.zeit)

instance : DecidableRel KeyLe := fun r s =>
  inferInstanceAs (Decidable (r.fish < s.fish ∨ (r.fish = s.fish ∧ r.zeit ≤ s.zeit)))

instance : IsTotal Row KeyLe where
  total a b := by
    rcases Nat.lt_trichotomy a.fish b.fish with h | h | h
    · exact Or.inl (Or.inl h)
    · rcases le_total a.zeit b.zeit with hz | hz
      · exact Or.inl (Or.inr ⟨h, hz⟩)
      · exact Or.inr (Or.inr ⟨h.symm, hz⟩)
    · exact Or.inr (Or.inl h)

instance : IsTrans Row KeyLe where
  trans a b c hab hbc := by
    rcases hab with h | ⟨he, hz⟩ <;> rcases hbc with h' | ⟨he', hz'⟩
    · exact Or.inl (h.trans h')
    · exact Or.inl (he' ▸ h)
    · exact Or.inl (he ▸ h')
    · exact Or.inr ⟨he.trans he', hz.trans hz'⟩

/-- `df.sort_values(by=['fish', 'zeit']).reset_index(drop=True)` (a stable
sort on the key (fish, zeit)). -/
def sortRows (l : List Row) : List Row := l.insertionSort KeyLe

/-- Split a table into the maximal consecutive runs of rows with equal `fish`.
On a table sorted by fish this is exactly the `groupby('fish')` partition, and
the run heads appear in the order of `df.fish.unique()`. -/
def fishRuns : List Row → List (List Row)
  | [] => []
  | r :: rs =>
    match fishRuns rs with
    | (s :: g) :: gs =>
      if s.fish = r.fish then (r :: s :: g) :: gs else [r] :: (s :: g) :: gs
    | gs => [r] :: gs

/-- `list(range(m)) * n`: the tiled new `zeit_ind` column of `resample`. -/
def tile (m n : Nat) : List Nat := (List.replicate n (List.range m)).flatten

/-- First index `i` at which `np.diff` of a Boolean series is nonzero, i.e.
`np.where(np.diff(l.astype(int)))[0][0]`; `none` when the `np.where` result is
empty (in which case indexing it raises `IndexError`). -/
def firstDiff : List Bool → Option Nat
  | [] => none
  | [_] => none
  | a :: b :: t =>
    if a = b then (firstDiff (b :: t)).map (· + 1) else some 0

/-- Trailing rolling sum of `activity` over `win` points of one individual's
series `g`, evaluated at position `p`: the value
`df.groupby('fish')['activity'].rolling(window=win).sum()` stores at `p`.
For `win ≤ p + 1` this sums exactly the `win` consecutive original values
ending at `p` (positions `p - win + 1 .. p`); for smaller `p` pandas stores
`NaN`, but `resample` never selects such a position because the first retained
right edge `win + t % win` is at least `win`. -/
def windowSum (g : List Row) (p win : Nat) : ℚ :=
  (((g.take (p + 1)).drop (p + 1 - win)).map Row.activity).sum

/-- The aggregate row selected at position `p` of a run `g`: the source row
with `activity` replaced by the rolling-sum value (`window` column). -/
def retRow (g : List Row) (win : Nat) (pr : Nat × Row) : Row :=
  { pr.2 with activity := windowSum g pr.1 win }

/-- Membership of position `p` in `np.arange(start, N - 1, win)`:
`start ≤ p < N - 1` with `p ≡ start (mod win)`. -/
def keepPos (start win N p : Nat) : Bool :=
  decide (start ≤ p) && decide ((p - start) % win = 0) && decide (p < N - 1)

/-- Rows of one individual retained by `resample` for `win > 1`: the rolling
sums at positions `np.arange(index[0] + start, index[-1], win)`, expressed
relative to the start of the individual's run. -/
def retainedRun (start win : Nat) (g : List Row) : List Row :=
  (g.enum.filter (fun pr => keepPos start win g.length pr.1)).map (retRow g win)

/-- `resample(df, ind_win)` from `data_parser.py`.  `none` models a raised
exception: an empty frame (`unique()[0]` raises), `window=0`
(`rolling` raises), no light transition in the first individual's series
(`np.where(...)[0][0]` raises `IndexError`), or a length mismatch between the
new `zeit_ind` list and the frame (pandas column assignment raises). -/
def resample (df : List Row) (win : Nat) : Option (List Row) :=
  let s := sortRows df
  let runs := fishRuns s
  let n := runs.length
  match runs.head? with
  | none => none
  | some g0 =>
    if win = 1 then
      let labels := tile g0.length n
      if labels.length = s.length then some (List.zipWith Row.setInd s labels)
      else none
    else if win = 0 then none
    else
      match firstDiff (g0.map Row.light) with
      | none => none
      | some t =>
        let start := win + t % win
        let kept := (runs.map (retainedRun start win)).flatten
        let labels := tile (kept.length / n) n
        if labels.length = kept.length then
          some (List.zipWith Row.setInd kept labels)
        else none

/-- Rows of the tidy table belonging to individual `f`. -/
def byFish (t : List Row) (f : Nat) : List Row := t.filter (fun r => r.fish == f)

/-- Per-individual `time_index` correctness: for every individual, the
`zeit_ind` column of its rows, in table order, is exactly `0 .. count-1`. -/
def GoodIdx (t : List Row) : Prop :=
  ∀ f : Nat, (byFish t f).map Row.zeit_ind = List.range (byFish t f).length

/-- Per-individual rows appear in non-decreasing `zeit` order. -/
def ZeitSorted (t : List Row) : Prop :=
  ∀ f : Nat, (byFish t f).Pairwise (fun r s => r.zeit ≤ s.zeit)

/-! ## Genotype table (`load_gtype`) -/

/-- One row of the tidy genotype table: a (genotype, fish) pair. -/
structure GRow where
  genotype : String
  fish : Nat
deriving DecidableEq

/-- `df_gt.loc[df_gt['fish'] == fish, 'genotype'].values[0]`: genotype of the
first matching genotype-table row. -/
def lookupG (gt : List GRow) (f : Nat) : String :=
  ((gt.find? (fun gr => gr.fish == f)).map GRow.genotype).getD ""

/-- The fish column of the genotype table. -/
def gtFishes (gt : List GRow) : List Nat := gt.map GRow.fish

/-- Index of the last space in a list of characters (`str.rfind(' ')`),
`none` when there is no space (Python returns `-1`). -/
def lastSpace : List Char → Option Nat
  | [] => none
  | c :: t =>
    match lastSpace t with
    | some i => some (i + 1)
    | none => if c = ' ' then some 0 else none

/-- `col[:col.rfind(' ')] if col.rfind(' ') > 0 else col`: strip a trailing
occupancy annotation from a genotype header cell at the last space. -/
def trimLabel (s : String) : String :=
  match lastSpace s.toList with
  | some i => if 0 < i then (s.toList.take i).asString else s
  | none => s

/-! ## Format A loader (`load_data`) -/

/-- One raw row of a Format A activity file, after timestamp parsing:
`location` string, calendar date (days since 1970-01-01), time of day in
hours, and the activity measure (`middur`). -/
structure ARow where
  loc : List Char
  date : Int
  tod : ℚ
  act : ℚ
deriving DecidableEq

/-- Value of a digit string. -/
def digitsVal (l : List Char) : Nat :=
  l.foldl (fun a c => 10 * a + (c.toNat - 48)) 0

/-- `str.extract('(\d+)').astype(int)`: the first maximal run of digits in the
location string, as a number; `none` (a raised error) when there is none. -/
def extractId (l : List Char) : Option Nat :=
  match l.dropWhile (fun c => !c.isDigit) with
  | [] => none
  | l' => some (digitsVal (l'.takeWhile Char.isDigit))

/-- Floor of a rational (`⌊q⌋`, computably: Euclidean division of numerator by
denominator). -/
def qfloor (q : ℚ) : Int := q.num / (q.den : Int)

/-- Day-of-month of the proleptic Gregorian date `z` days after 1970-01-01
(Howard Hinnant's `civil_from_days`); this is the `.day` field pandas reports
for the datetime at epoch + `z` days, which line 92 of `data_parser.py` reads
off a timedelta reinterpreted as a `DatetimeIndex`. -/
def civilDom (z : Int) : Int :=
  let z' := z + 719468
  let era := z' / 146097
  let doe := z' - era * 146097
  let yoe := (doe - doe / 1460 + doe / 36524 - doe / 146096) / 365
  let doy := doe - (365 * yoe + yoe / 4 - yoe / 100)
  let mp := (5 * doy + 2) / 153
  doy - (153 * mp + 2) / 5 + 1

/-- Absolute time of a raw row, in hours. -/
def aTime (r : ARow) : ℚ := 24 * r.date + r.tod

/-- `pd.DatetimeIndex(df['time']).min()` over the retained rows, in hours. -/
def tMin (rows : List ARow) : ℚ :=
  match rows with
  | [] => 0
  | r :: rs => rs.foldl (fun a x => min a (aTime x)) (aTime r)

/-- `datetime.datetime.combine(t_min.date(), lights_on)`, in hours: midnight
of the earliest timestamp's date plus the lights-on time of day. -/
def aAnchor (lights_on : ℚ) (rows : List ARow) : ℚ :=
  24 * qfloor (tMin rows / 24) + lights_on

/-- Hours elapsed from the lights-on anchor to a row's timestamp. -/
def aDelta (lights_on : ℚ) (rows : List ARow) (r : ARow) : ℚ :=
  aTime r - aAnchor lights_on rows

/-- The `day` column of `load_data`:
`pd.DatetimeIndex(df['time'] - combine(t_min.date(), lights_on)).day
 + day_in_the_life - 1`, i.e. the day-of-month of the epoch datetime shifted
by the timedelta, plus the offset. -/
def aDay (lights_on : ℚ) (dil : Int) (rows : List ARow) (r : ARow) : Int :=
  civilDom (qfloor (aDelta lights_on rows r / 24)) + dil - 1

/-- Tidy row built by `load_data` for raw row `r` with parsed id `f`
(`zeit_ind` is assigned later). -/
def mkARow (gt : List GRow) (lights_on lights_off : ℚ) (dil : Int)
    (rows : List ARow) (f : Nat) (r : ARow) : Row :=
  { fish := f
    genotype := lookupG gt f
    day := aDay lights_on dil rows r
    light := decide (lights_on ≤ r.tod) && decide (r.tod < lights_off)
    zeit := aTime r - tMin rows
    zeit_ind := 0
    activity := r.act }

/-- Lines 99–103 of `data_parser.py`: on the sorted table, give each
individual's rows the indices `0 .. count-1` in order. -/
def assignZeitInds (l : List Row) : List Row :=
  ((fishRuns l).map (fun g => List.zipWith Row.setInd g (List.range g.length))).flatten

/-- `load_data` from `data_parser.py`: extract integer ids from the location
strings (`none` if any fails to parse, since `astype(int)` raises before any
filtering), keep rows whose id occurs in the genotype table, attach genotype,
`zeit` (hours since the earliest retained timestamp), `light`, `day`, then
sort by (fish, zeit) and assign per-individual `zeit_ind`.  When no row
survives the genotype filter the program also raises — `t_min` is `NaT`, so
line 92's `combine(t_min.date(), lights_on)` fails, and the `zeit_ind` loop
never creates the column that line 103 then reads — so an empty retained
frame is `none` as well. -/
def load_data (gt : List GRow) (rows : List ARow) (lights_on lights_off : ℚ)
    (dil : Int) : Option (List Row) :=
  match rows.mapM (fun r => (extractId r.loc).map (fun f => (f, r))) with
  | none => none
  | some withIds =>
    let kept := withIds.filter (fun p => (gtFishes gt).contains p.1)
    if kept = [] then none
    else
      let keptRows := kept.map Prod.snd
      let built := kept.map (fun p => mkARow gt lights_on lights_off dil keptRows p.1 p.2)
      some (assignZeitInds (sortRows built))

/-! ## Format B loader (`load_perl_processed_activity`) -/

/-- One individual's column of a Format B file: the id embedded in the
`FISHn` column name, and the activity values down the rows. -/
structure BCol where
  fish : Nat
  vals : List ℚ
deriving DecidableEq

/-- One row of the tidy output of the Format B loader (`load_perl` output has
no `zeit_ind` column). -/
structure BRow where
  fish : Nat
  genotype : String
  day : Nat
  light : Bool
  zeit : ℚ
  activity : ℚ
deriving DecidableEq

/-- `df.CLOCK < 14.0`, the light column of the Format B loader. -/
def bLights (clocks : List ℚ) : List Bool := clocks.map (fun c => decide (c < 14))

/-- `np.where(np.diff(df['light'].astype(int)) == 1)[0]`: positions `i` where
the light flag rises from `false` at `i` to `true` at `i + 1`. -/
def darkToLight (clocks : List ℚ) : List Nat :=
  (List.range (clocks.length - 1)).filter
    (fun i => !(bLights clocks).getD i true && (bLights clocks).getD (i + 1) false)

/-- The day number of time bin `k`: the number of dark→light transitions
strictly before `k`.  This is what the assignment loop of lines 159–161
computes: bins in `(dark_to_light[i], dark_to_light[i+1]]` get `i + 1`, bins
up to `dark_to_light[0]` keep `0`, bins after the last transition get the
transition count. -/
def bDay (clocks : List ℚ) (k : Nat) : Nat :=
  (darkToLight clocks).countP (fun i => decide (i < k))

/-- The melted rows contributed by one retained individual column: one row
per time bin, in file order. -/
def bRowsFor (gt : List GRow) (clocks : List ℚ) (c : BCol) : List BRow :=
  (List.range clocks.length).map (fun k =>
    { fish := c.fish
      genotype := lookupG gt c.fish
      day := bDay clocks k
      light := decide (clocks.getD k 0 < 14)
      zeit := 24 * (bDay clocks k : ℚ) + clocks.getD k 0
      activity := c.vals.getD k 0 })

/-- `load_perl_processed_activity` from `data_parser.py`: drop individual
columns whose id has no genotype entry, compute `light`, `day`, `zeit` from
the clock column, and melt to one row per individual per time bin (the melt
stacks each retained individual's full series in turn).  When the series has
no dark→light transition, line 161 (`dark_to_light[-1]`) raises `IndexError`,
modeled as `none`. -/
def load_perl_processed_activity (gt : List GRow) (clocks : List ℚ)
    (cols : List BCol) : Option (List BRow) :=
  if darkToLight clocks = [] then none
  else
    some (((cols.filter (fun c => (gtFishes gt).contains c.fish)).map
      (bRowsFor gt clocks)).flatten)

/-! ## Definitions used by the proofs and concrete examples -/

/-- The fish id of a run (of its first row). -/
def runFish (g : List Row) : Nat := ((g.head?).map Row.fish).getD 0

/-- Rows of distinct runs have distinct fish ids. -/
def RunsDisj (runs : List (List Row)) : Prop :=
  runs.Pairwise (fun g h => ∀ x ∈ g, ∀ y ∈ h, x.fish ≠ y.fish)

/-- Within a run, all rows have the same fish id. -/
def RunsConstant (runs : List (List Row)) : Prop :=
  ∀ g ∈ runs, ∀ x ∈ g, ∀ y ∈ g, x.fish = y.fish

/-- Split a flat `zeit_ind` assignment into the per-run assignments. -/
def zipChunks : List (List Row) → List Nat → List (List Row)
  | [], _ => []
  | g :: gs, labs =>
    List.zipWith Row.setInd g (labs.take g.length) :: zipChunks gs (labs.drop g.length)

/-- Segment `j` of the label list is correctly `0 .. ks_j - 1`: the label at
flat position `(sum of the first j sizes) + i` is `i`, modulo `m`. -/
def GoodTiling (ks : List Nat) (m : Nat) : Prop :=
  ∀ j, j < ks.length → ∀ i, i < ks.getD j 0 → ((ks.take j).sum + i) % m = i

/-- The raw rows `load_data` retains: those whose location parses to an id
present in the genotype table. -/
def keptA (gt : List GRow) (rows : List ARow) : List ARow :=
  rows.filter (fun r =>
    match extractId r.loc with
    | some f => (gtFishes gt).contains f
    | none => false)

/-- A bare tidy row used by the concrete examples. -/
def exRow (f : Nat) (li : Bool) (z a : ℚ) : Row := ⟨f, "g", 0, li, z, 0, a⟩

/-- One individual, 10 one-point time bins, dark up to index 3 and light from
index 4, activity `2 ^ k` in bin `k` (the Resampler example of §8). -/
def exC1 : List Row :=
  (List.range 10).map (fun (k : Nat) => exRow 1 (decide (4 ≤ k)) k ((2 ^ k : ℕ) : ℚ))

/-- Two individuals with unequal row counts (5 and 8 bins). -/
def exC2 : List Row :=
  ((List.range 5).map (fun (k : Nat) => exRow 1 (decide (1 ≤ k)) k 1)) ++
  ((List.range 8).map (fun (k : Nat) => exRow 2 (decide (1 ≤ k)) k 1))

/-- Two individuals with unequal row counts (7 and 8 bins) whose retained
counts under window 5 happen to coincide. -/
def exC10 : List Row :=
  ((List.range 7).map (fun (k : Nat) => exRow 1 (decide (1 ≤ k)) k 1)) ++
  ((List.range 8).map (fun (k : Nat) => exRow 2 (decide (1 ≤ k)) k 1))

/-- Three individuals with counts 4, 5 and 3: the total is divisible by the
individual count, so the window-1 tiling succeeds but mislabels. -/
def exC10bad : List Row :=
  ((List.range 4).map (fun (k : Nat) => exRow 1 (decide (1 ≤ k)) k 1)) ++
  ((List.range 5).map (fun (k : Nat) => exRow 2 (decide (1 ≤ k)) k 1)) ++
  ((List.range 3).map (fun (k : Nat) => exRow 3 (decide (1 ≤ k)) k 1))

/-- Two individuals with equal counts. -/
def exEq : List Row := [exRow 1 false 0 1, exRow 1 true 1 2, exRow 2 false 0 3, exRow 2 true 1 4]

/-- One individual with 3 bins and a light transition. -/
def exC7 : List Row := [exRow 1 false 0 1, exRow 1 true 1 2, exRow 1 true 2 3]

/-- One individual with 1 row and another with 2 rows. -/
def exC6bad : List Row := [exRow 1 true 0 1, exRow 2 true 0 2, exRow 2 true 1 3]

/-- The §8 Format A example: genotype file assigning individual 3 to
"mutant"; well `c3`, two samples at 09:00:00 and 09:05:00 of the first day,
`lights_on = 9:00`, `lights_off = 23:00`, `day_in_the_life = 5`. -/
def gtC4 : List GRow := [⟨"mutant", 3⟩]

def rowsC4 : List ARow := [⟨"c3".toList, 0, 9, 1⟩, ⟨"c3".toList, 0, 9 + 5/60, 2⟩]

/-- Format A input whose first sample (08:00) precedes the lights-on anchor
(09:00). -/
def gtC5 : List GRow := [⟨"g", 1⟩]

def rowsC5 : List ARow := [⟨"c1".toList, 0, 8, 1⟩, ⟨"c1".toList, 0, 19/2, 2⟩]

/-- A small Format B input: two genotyped individuals, one matching column
(`FISH1`), one unmatched column (`FISH3`), clock hours crossing the 14.0
threshold and wrapping over a dark→light transition. -/
def gtB : List GRow := [⟨"wt", 1⟩, ⟨"mut", 2⟩]

def colsB : List BCol := [⟨1, [1, 2, 3, 4, 5, 6]⟩, ⟨3, [9, 9, 9, 9, 9, 9]⟩]

def clocksB : List ℚ := [12, 13, 15, 23, 2, 13]

/-- The Format B loader output on the example input. -/
def outB : List BRow :=
  [⟨1, "wt", 0, true, 12, 1⟩, ⟨1, "wt", 0, true, 13, 2⟩, ⟨1, "wt", 0, false, 15, 3⟩,
   ⟨1, "wt", 0, false, 23, 4⟩, ⟨1, "wt", 1, true, 26, 5⟩, ⟨1, "wt", 1, true, 37, 6⟩]

/-- The Format A loader output on the §8 example input. -/
def outC4 : List Row :=
  [⟨3, "mutant", 5, true, 0, 0, 1⟩, ⟨3, "mutant", 5, true, 1/12, 1, 2⟩]

/-- The mislabeled window-1 output on three individuals with counts 4, 5, 3. -/
def tBad : List Row :=
  [⟨1, "g", 0, false, 0, 0, 1⟩, ⟨1, "g", 0, true, 1, 1, 1⟩, ⟨1, "g", 0, true, 2, 2, 1⟩,
   ⟨1, "g", 0, true, 3, 3, 1⟩, ⟨2, "g", 0, false, 0, 0, 1⟩, ⟨2, "g", 0, true, 1, 1, 1⟩,
   ⟨2, "g", 0, true, 2, 2, 1⟩, ⟨2, "g", 0, true, 3, 3, 1⟩, ⟨2, "g", 0, true, 4, 0, 1⟩,
   ⟨3, "g", 0, false, 0, 1, 1⟩, ⟨3, "g", 0, true, 1, 2, 1⟩, ⟨3, "g", 0, true, 2, 3, 1⟩]

/-- The window-1 resample of the equal-count table `exEq`. -/
def tEq : List Row :=
  [⟨1, "g", 0, false, 0, 0, 1⟩, ⟨1, "g", 0, true, 1, 1, 2⟩,
   ⟨2, "g", 0, false, 0, 0, 3⟩, ⟨2, "g", 0, true, 1, 1, 4⟩]

/-! ## Structural lemmas: sorting and fish runs -/

theorem sortRows_perm (l : List Row) : (sortRows l).Perm l :=
  List.perm_insertionSort KeyLe l

theorem sortRows_sorted (l : List Row) : (sortRows l).Pairwise KeyLe :=
  List.sorted_insertionSort KeyLe l

theorem sortRows_of_sorted {l : List Row} (h : l.Pairwise KeyLe) : sortRows l = l :=
  List.Sorted.insertionSort_eq h

theorem keyLe_fish_le {r s : Row} (h : KeyLe r s) : r.fish ≤ s.fish := by
  rcases h with h | ⟨h, _⟩
  · exact Nat.le_of_lt h
  · exact Nat.le_of_eq h

theorem fishRuns_cons (r : Row) (rs : List Row) :
    fishRuns (r :: rs) =
      match fishRuns rs with
      | (s :: g) :: gs =>
        if s.fish = r.fish then (r :: s :: g) :: gs else [r] :: (s :: g) :: gs
      | gs => [r] :: gs := rfl

theorem fishRuns_cons_of_eq {rs : List Row} {s : Row} {t : List Row}
    {gs : List (List Row)} (r : Row) (h : fishRuns rs = (s :: t) :: gs) :
    fishRuns (r :: rs) =
      if s.fish = r.fish then (r :: s :: t) :: gs else [r] :: (s :: t) :: gs := by
  rw [fishRuns_cons, h]

theorem fishRuns_cons_of_nil {rs : List Row} (r : Row) (h : fishRuns rs = []) :
    fishRuns (r :: rs) = [[r]] := by
  rw [fishRuns_cons, h]

theorem fishRuns_ne_nil : ∀ {l : List Row} {g : List Row}, g ∈ fishRuns l → g ≠ [] := by
  intro l
  induction l with
  | nil => intro g h; simp [fishRuns] at h
  | cons r rs ih =>
    intro g hg
    cases hfr : fishRuns rs with
    | nil =>
      rw [fishRuns_cons_of_nil r hfr] at hg
      rcases List.mem_cons.mp hg with h | h
      · subst h; simp
      · simp at h
    | cons g0 gs =>
      cases g0 with
      | nil => exact absurd rfl (ih (hfr ▸ List.mem_cons_self [] gs))
      | cons s t =>
        rw [fishRuns_cons_of_eq r hfr] at hg
        by_cases hf : s.fish = r.fish
        · rw [if_pos hf] at hg
          rcases List.mem_cons.mp hg with h | h
          · subst h; simp
          · exact ih (hfr ▸ List.mem_cons_of_mem _ h)
        · rw [if_neg hf] at hg
          rcases List.mem_cons.mp hg with h | h
          · subst h; simp
          · exact ih (hfr ▸ h)

theorem fishRuns_flatten : ∀ l : List Row, (fishRuns l).flatten = l := by
  intro l
  induction l with
  | nil => rfl
  | cons r rs ih =>
    cases hfr : fishRuns rs with
    | nil =>
      rw [fishRuns_cons_of_nil r hfr]
      rw [hfr] at ih
      simp at ih
      simp [ih]
    | cons g0 gs =>
      cases g0 with
      | nil => exact absurd rfl (fishRuns_ne_nil (hfr ▸ List.mem_cons_self [] gs))
      | cons s t =>
        rw [fishRuns_cons_of_eq r hfr]
        rw [hfr] at ih
        by_cases hf : s.fish = r.fish
        · rw [if_pos hf]
          simpa using ih
        · rw [if_neg hf]
          simpa using ih

theorem fishRuns_sublist : ∀ {l g : List Row}, g ∈ fishRuns l → g.Sublist l := by
  intro l
  induction l with
  | nil => intro g h; simp [fishRuns] at h
  | cons r rs ih =>
    intro g hg
    cases hfr : fishRuns rs with
    | nil =>
      rw [fishRuns_cons_of_nil r hfr] at hg
      rcases List.mem_cons.mp hg with h | h
      · subst h
        simp
      · simp at h
    | cons g0 gs =>
      cases g0 with
      | nil => exact absurd rfl (fishRuns_ne_nil (hfr ▸ List.mem_cons_self [] gs))
      | cons s t =>
        rw [fishRuns_cons_of_eq r hfr] at hg
        by_cases hf : s.fish = r.fish
        · rw [if_pos hf] at hg
          rcases List.mem_cons.mp hg with h | h
          · subst h
            exact List.Sublist.cons₂ r (ih (hfr ▸ List.mem_cons_self _ _))
          · exact List.Sublist.cons r (ih (hfr ▸ List.mem_cons_of_mem _ h))
        · rw [if_neg hf] at hg
          rcases List.mem_cons.mp hg with h | h
          · subst h
            simp
          · exact List.Sublist.cons r (ih (hfr ▸ h))

theorem fishRuns_pairwise {P : Row → Row → Prop} {l : List Row}
    (h : l.Pairwise P) {g : List Row} (hg : g ∈ fishRuns l) : g.Pairwise P :=
  List.Pairwise.sublist (fishRuns_sublist hg) h

theorem fishRuns_const : ∀ {l g : List Row}, g ∈ fishRuns l →
    ∀ x ∈ g, x.fish = runFish g := by
  intro l
  induction l with
  | nil => intro g h; simp [fishRuns] at h
  | cons r rs ih =>
    intro g hg x hx
    cases hfr : fishRuns rs with
    | nil =>
      rw [fishRuns_cons_of_nil r hfr] at hg
      rcases List.mem_cons.mp hg with h | h
      · subst h
        rcases List.mem_cons.mp hx with h' | h'
        · subst h'; rfl
        · simp at h'
      · simp at h
    | cons g0 gs =>
      cases g0 with
      | nil => exact absurd rfl (fishRuns_ne_nil (hfr ▸ List.mem_cons_self [] gs))
      | cons s t =>
        rw [fishRuns_cons_of_eq r hfr] at hg
        by_cases hf : s.fish = r.fish
        · rw [if_pos hf] at hg
          rcases List.mem_cons.mp hg with h | h
          · subst h
            rcases List.mem_cons.mp hx with h' | h'
            · subst h'; rfl
            · have := ih (hfr ▸ List.mem_cons_self (s :: t) gs) x h'
              simpa [runFish, hf] using this
          · exact ih (hfr ▸ List.mem_cons_of_mem _ h) x hx
        · rw [if_neg hf] at hg
          rcases List.mem_cons.mp hg with h | h
          · subst h
            rcases List.mem_cons.mp hx with h' | h'
            · subst h'; rfl
            · simp at h'
          · exact ih (hfr ▸ h) x hx

theorem fishRuns_constant (l : List Row) : RunsConstant (fishRuns l) := by
  intro g hg x hx y hy
  rw [fishRuns_const hg x hx, fishRuns_const hg y hy]

theorem head_of_fishRuns_cons {rs : List Row} {s : Row} {t : List Row}
    {gs : List (List Row)} (h : fishRuns rs = (s :: t) :: gs) :
    rs = s :: (t ++ gs.flatten) := by
  have := fishRuns_flatten rs
  rw [h] at this
  simpa using this.symm

theorem fishRuns_disj {l : List Row} (hs : l.Pairwise KeyLe) :
    RunsDisj (fishRuns l) := by
  induction l with
  | nil => simp [fishRuns, RunsDisj]
  | cons r rs ih =>
    have hs' : rs.Pairwise KeyLe := (List.pairwise_cons.mp hs).2
    have hr : ∀ y ∈ rs, KeyLe r y := (List.pairwise_cons.mp hs).1
    have ihd : RunsDisj (fishRuns rs) := ih hs'
    cases hfr : fishRuns rs with
    | nil =>
      rw [fishRuns_cons_of_nil r hfr]
      simp [RunsDisj]
    | cons g0 gs =>
      cases g0 with
      | nil => exact absurd rfl (fishRuns_ne_nil (hfr ▸ List.mem_cons_self [] gs))
      | cons s t =>
        rw [fishRuns_cons_of_eq r hfr]
        rw [hfr] at ihd
        have hrs : rs = s :: (t ++ gs.flatten) := head_of_fishRuns_cons hfr
        by_cases hf : s.fish = r.fish
        · rw [if_pos hf]
          rcases List.pairwise_cons.mp ihd with ⟨hhead, htail⟩
          refine List.pairwise_cons.mpr ⟨?_, htail⟩
          intro g' hg' x hx y hy
          rcases List.mem_cons.mp hx with h' | h'
          · subst h'
            have := hhead g' hg' s (List.mem_cons_self s t) y hy
            rw [hf] at this
            exact this
          · exact hhead g' hg' x h' y hy
        · rw [if_neg hf]
          -- r's fish is strictly below every fish in rs
          have hlt : ∀ y ∈ rs, r.fish < y.fish := by
            intro y hy
            have h1 : r.fish ≤ s.fish := by
              have : s ∈ rs := by rw [hrs]; exact List.mem_cons_self _ _
              exact keyLe_fish_le (hr s this)
            have h2 : r.fish < s.fish := lt_of_le_of_ne h1 (fun he => hf he.symm)
            rcases List.mem_cons.mp (hrs ▸ hy) with h' | h'
            · subst h'; exact h2
            · have : KeyLe s y := by
                have := List.pairwise_cons.mp (hrs ▸ hs')
                exact this.1 y h'
              exact lt_of_lt_of_le h2 (keyLe_fish_le this)
          refine List.pairwise_cons.mpr ⟨?_, ihd⟩
          intro g' hg' x hx y hy
          have hxr : x = r := by simpa using hx
          subst hxr
          have hyrs : y ∈ rs := by
            have hfl := fishRuns_flatten rs
            rw [hfr] at hfl
            rw [← hfl]
            exact List.mem_flatten.mpr ⟨g', hg', hy⟩
          exact Nat.ne_of_lt (hlt y hyrs)

/-! ## byFish lemmas -/

theorem byFish_append (a b : List Row) (f : Nat) :
    byFish (a ++ b) f = byFish a f ++ byFish b f :=
  List.filter_append a b

theorem byFish_eq_nil {t : List Row} {f : Nat} (h : ∀ x ∈ t, x.fish ≠ f) :
    byFish t f = [] := by
  refine List.filter_eq_nil_iff.mpr ?_
  intro a ha
  simpa using h a ha

theorem byFish_eq_self {t : List Row} {f : Nat} (h : ∀ x ∈ t, x.fish = f) :
    byFish t f = t := by
  refine List.filter_eq_self.mpr ?_
  intro a ha
  simpa using h a ha

theorem byFish_flatten_of_mem {runs : List (List Row)} (hc : RunsConstant runs)
    (hd : RunsDisj runs) {g : List Row} (hg : g ∈ runs) {x₀ : Row} (hx : x₀ ∈ g) :
    byFish runs.flatten x₀.fish = g := by
  induction runs with
  | nil => simp at hg
  | cons a rest ih =>
    have hc' : RunsConstant rest := fun g' h' => hc g' (List.mem_cons_of_mem a h')
    rcases List.pairwise_cons.mp hd with ⟨hhead, htail⟩
    rw [List.flatten_cons, byFish_append]
    rcases List.mem_cons.mp hg with h | h
    · subst h
      have h1 : byFish g x₀.fish = g :=
        byFish_eq_self (fun x hx' => hc g (List.mem_cons_self g rest) x hx' x₀ hx)
      have h2 : byFish rest.flatten x₀.fish = [] := by
        refine byFish_eq_nil ?_
        intro y hy
        rcases List.mem_flatten.mp hy with ⟨h', hh', hyh⟩
        exact fun he => hhead h' hh' x₀ hx y hyh he.symm
      rw [h1, h2, List.append_nil]
    · have h1 : byFish a x₀.fish = [] := by
        refine byFish_eq_nil ?_
        intro x hx'
        exact hhead g h x hx' x₀ hx
      rw [h1, List.nil_append]
      exact ih hc' htail h

theorem byFish_flatten_of_forall_ne {runs : List (List Row)} {f : Nat}
    (h : ∀ g ∈ runs, ∀ x ∈ g, x.fish ≠ f) : byFish runs.flatten f = [] := by
  refine byFish_eq_nil ?_
  intro y hy
  rcases List.mem_flatten.mp hy with ⟨g, hg, hyg⟩
  exact h g hg y hyg

/-! ## zeit_ind assignment machinery -/

theorem setInd_strip (r : Row) (i : Nat) : (Row.setInd r i).strip = r.strip := rfl

theorem setInd_fish (r : Row) (i : Nat) : (Row.setInd r i).fish = r.fish := rfl

theorem setInd_zeit_ind (r : Row) (i : Nat) : (Row.setInd r i).zeit_ind = i := rfl

theorem setInd_setInd (r : Row) (i j : Nat) :
    Row.setInd (Row.setInd r i) j = Row.setInd r j := rfl

theorem mem_zipSet : ∀ {g : List Row} {labs : List Nat} {y : Row},
    y ∈ List.zipWith Row.setInd g labs → ∃ x ∈ g, ∃ i, y = Row.setInd x i := by
  intro g
  induction g with
  | nil => intro labs y hy; simp at hy
  | cons x g' ih =>
    intro labs y hy
    cases labs with
    | nil => simp at hy
    | cons i labs' =>
      rcases List.mem_cons.mp hy with h | h
      · exact ⟨x, List.mem_cons_self x g', i, h⟩
      · rcases ih h with ⟨x', hx', i', hi'⟩
        exact ⟨x', List.mem_cons_of_mem x hx', i', hi'⟩

theorem zipSet_map_strip : ∀ {g : List Row} {labs : List Nat},
    g.length ≤ labs.length →
    (List.zipWith Row.setInd g labs).map Row.strip = g.map Row.strip := by
  intro g
  induction g with
  | nil => intro labs _; rfl
  | cons x g' ih =>
    intro labs h
    cases labs with
    | nil => simp at h
    | cons i labs' =>
      simp only [List.zipWith_cons_cons, List.map_cons, setInd_strip]
      rw [ih (Nat.le_of_succ_le_succ h)]

theorem zipSet_map_fish : ∀ {g : List Row} {labs : List Nat},
    g.length ≤ labs.length →
    (List.zipWith Row.setInd g labs).map Row.fish = g.map Row.fish := by
  intro g
  induction g with
  | nil => intro labs _; rfl
  | cons x g' ih =>
    intro labs h
    cases labs with
    | nil => simp at h
    | cons i labs' =>
      simp only [List.zipWith_cons_cons, List.map_cons, setInd_fish]
      rw [ih (Nat.le_of_succ_le_succ h)]

theorem zipSet_map_zeit_ind : ∀ {g : List Row} {labs : List Nat},
    (List.zipWith Row.setInd g labs).map Row.zeit_ind = labs.take g.length := by
  intro g
  induction g with
  | nil => intro labs; simp
  | cons x g' ih =>
    intro labs
    cases labs with
    | nil => simp
    | cons i labs' =>
      simp only [List.zipWith_cons_cons, List.map_cons, setInd_zeit_ind,
        List.length_cons, List.take_succ_cons]
      rw [ih]

theorem zipSet_pairwise {P : Row → Row → Prop}
    (hP : ∀ (a b : Row) (i j : Nat), P a b → P (a.setInd i) (b.setInd j)) :
    ∀ {g : List Row} {labs : List Nat},
    g.Pairwise P → (List.zipWith Row.setInd g labs).Pairwise P := by
  intro g
  induction g with
  | nil => intro labs _; simp
  | cons x g' ih =>
    intro labs hp
    cases labs with
    | nil => simp
    | cons i labs' =>
      rcases List.pairwise_cons.mp hp with ⟨hhead, htail⟩
      refine List.pairwise_cons.mpr ⟨?_, ih htail⟩
      intro y hy
      rcases mem_zipSet hy with ⟨x', hx', i', rfl⟩
      exact hP x x' i i' (hhead x' hx')

theorem zipSet_zipSet : ∀ (g : List Row) (labs : List Nat),
    List.zipWith Row.setInd (List.zipWith Row.setInd g labs) labs =
      List.zipWith Row.setInd g labs := by
  intro g
  induction g with
  | nil => intro labs; rfl
  | cons x g' ih =>
    intro labs
    cases labs with
    | nil => rfl
    | cons i labs' =>
      simp only [List.zipWith_cons_cons, setInd_setInd]
      rw [ih]

theorem zipChunks_flatten : ∀ (runs : List (List Row)) (labs : List Nat),
    runs.flatten.length ≤ labs.length →
    List.zipWith Row.setInd runs.flatten labs = (zipChunks runs labs).flatten := by
  intro runs
  induction runs with
  | nil => intro labs _; rfl
  | cons g gs ih =>
    intro labs h
    simp only [List.flatten_cons, List.length_append] at h
    have hg : g.length ≤ labs.length := le_trans (Nat.le_add_right _ _) h
    have htk : (labs.take g.length).length = g.length := by
      rw [List.length_take]
      exact Nat.min_eq_left hg
    calc List.zipWith Row.setInd (g ++ gs.flatten) labs
        = List.zipWith Row.setInd (g ++ gs.flatten)
            (labs.take g.length ++ labs.drop g.length) := by
          rw [List.take_append_drop]
      _ = List.zipWith Row.setInd g (labs.take g.length) ++
            List.zipWith Row.setInd gs.flatten (labs.drop g.length) := by
          exact List.zipWith_append _ _ _ _ _ htk.symm
      _ = (zipChunks (g :: gs) labs).flatten := by
          rw [zipChunks]
          rw [List.flatten_cons]
          congr 1
          refine ih (labs.drop g.length) ?_
          rw [List.length_drop]
          omega

theorem mem_mem_zipChunks : ∀ {runs : List (List Row)} {labs : List Nat}
    {h : List Row} {y : Row}, h ∈ zipChunks runs labs → y ∈ h →
    ∃ g ∈ runs, ∃ x ∈ g, ∃ i, y = Row.setInd x i := by
  intro runs
  induction runs with
  | nil => intro labs h y hh _; simp [zipChunks] at hh
  | cons g gs ih =>
    intro labs h y hh hy
    rw [zipChunks] at hh
    rcases List.mem_cons.mp hh with h' | h'
    · subst h'
      rcases mem_zipSet hy with ⟨x, hx, i, rfl⟩
      exact ⟨g, List.mem_cons_self g gs, x, hx, i, rfl⟩
    · rcases ih h' hy with ⟨g', hg', x, hx, i, rfl⟩
      exact ⟨g', List.mem_cons_of_mem g hg', x, hx, i, rfl⟩

theorem zipChunks_constant {runs : List (List Row)} {labs : List Nat}
    (hc : RunsConstant runs) : RunsConstant (zipChunks runs labs) := by
  induction runs generalizing labs with
  | nil => intro h hh; simp [zipChunks] at hh
  | cons g gs ih =>
    intro h hh x hx y hy
    rw [zipChunks] at hh
    rcases List.mem_cons.mp hh with h' | h'
    · subst h'
      rcases mem_zipSet hx with ⟨x', hx', i, rfl⟩
      rcases mem_zipSet hy with ⟨y', hy', j, rfl⟩
      exact hc g (List.mem_cons_self g gs) x' hx' y' hy'
    · exact ih (fun g' hg' => hc g' (List.mem_cons_of_mem g hg')) h h' x hx y hy

theorem zipChunks_disj {runs : List (List Row)} {labs : List Nat}
    (hd : RunsDisj runs) : RunsDisj (zipChunks runs labs) := by
  induction runs generalizing labs with
  | nil => simp [zipChunks, RunsDisj]
  | cons g gs ih =>
    rcases List.pairwise_cons.mp hd with ⟨hhead, htail⟩
    rw [zipChunks]
    refine List.pairwise_cons.mpr ⟨?_, ih htail⟩
    intro h' hh' x hx y hy
    rcases mem_zipSet hx with ⟨x', hx', i, rfl⟩
    rcases mem_mem_zipChunks hh' hy with ⟨g', hg', y', hy', j, rfl⟩
    exact hhead g' hg' x' hx' y' hy'

theorem zipChunks_length : ∀ (runs : List (List Row)) (labs : List Nat),
    (zipChunks runs labs).length = runs.length := by
  intro runs
  induction runs with
  | nil => intro labs; rfl
  | cons g gs ih => intro labs; rw [zipChunks]; simp [ih]

/-! ## getD and tile lemmas -/

theorem getD_append_left {l₁ l₂ : List Nat} {n : Nat} (h : n < l₁.length) :
    (l₁ ++ l₂).getD n 0 = l₁.getD n 0 := by
  rw [List.getD_eq_getElem?_getD, List.getD_eq_getElem?_getD, List.getElem?_append,
    if_pos h]

theorem getD_append_right {l₁ l₂ : List Nat} {n : Nat} (h : l₁.length ≤ n) :
    (l₁ ++ l₂).getD n 0 = l₂.getD (n - l₁.length) 0 := by
  rw [List.getD_eq_getElem?_getD, List.getD_eq_getElem?_getD, List.getElem?_append,
    if_neg (by omega)]

theorem getD_range {m n : Nat} (h : m < n) : (List.range n).getD m 0 = m := by
  rw [List.getD_eq_getElem?_getD, List.getElem?_range h]
  rfl

theorem getD_take {l : List Nat} {n i : Nat} (h : i < n) :
    (l.take n).getD i 0 = l.getD i 0 := by
  rw [List.getD_eq_getElem?_getD, List.getD_eq_getElem?_getD, List.getElem?_take,
    if_pos h]

theorem getD_drop (l : List Nat) (n i : Nat) :
    (l.drop n).getD i 0 = l.getD (n + i) 0 := by
  rw [List.getD_eq_getElem?_getD, List.getD_eq_getElem?_getD, List.getElem?_drop]

theorem tile_succ (m n : Nat) : tile m (n + 1) = List.range m ++ tile m n := rfl

theorem length_tile (m n : Nat) : (tile m n).length = n * m := by
  induction n with
  | zero => simp [tile]
  | succ k ih =>
    rw [tile_succ, List.length_append, List.length_range, ih, Nat.succ_mul]
    omega

theorem getD_tile : ∀ {m n p : Nat}, p < n * m → (tile m n).getD p 0 = p % m := by
  intro m n
  induction n with
  | zero => intro p h; omega
  | succ k ih =>
    intro p h
    rw [tile_succ]
    by_cases hp : p < m
    · rw [getD_append_left (by simpa using hp), getD_range hp,
        Nat.mod_eq_of_lt hp]
    · have hm : m ≤ p := Nat.le_of_not_lt hp
      rw [getD_append_right (by simpa using hm)]
      have h1 : (List.range m).length = m := List.length_range m
      rw [h1]
      have h2 : p - m < k * m := by
        rw [Nat.succ_mul] at h
        omega
      rw [ih h2]
      conv_rhs => rw [← Nat.sub_add_cancel hm]
      rw [Nat.add_mod_right]

theorem zipChunks_tile_of_const_len : ∀ {runs : List (List Row)} {m : Nat},
    (∀ g ∈ runs, g.length = m) →
    zipChunks runs (tile m runs.length) =
      runs.map (fun g => List.zipWith Row.setInd g (List.range g.length)) := by
  intro runs
  induction runs with
  | nil => intro m _; rfl
  | cons g gs ih =>
    intro m h
    have hg : g.length = m := h g (List.mem_cons_self g gs)
    rw [zipChunks, List.length_cons, tile_succ, List.map_cons]
    congr 1
    · rw [hg, List.take_left' (List.length_range m)]
    · rw [hg, List.drop_left' (List.length_range m)]
      exact ih (fun g' hg' => h g' (List.mem_cons_of_mem g hg'))

/-! ## The tiled index assignment forces equal group sizes -/

theorem firstPos (l : List Nat) (h : 0 < l.sum) :
    ∃ j, j < l.length ∧ 0 < l.getD j 0 ∧ (l.take j).sum = 0 := by
  induction l with
  | nil => simp at h
  | cons k tl ih =>
    by_cases hk : 0 < k
    · exact ⟨0, by simp, by simpa using hk, rfl⟩
    · have hk0 : k = 0 := by omega
      subst hk0
      have h' : 0 < tl.sum := by simpa using h
      rcases ih h' with ⟨j, hj, hpos, hsum⟩
      exact ⟨j + 1, by simpa using hj, by simpa using hpos, by simpa using hsum⟩

theorem sum_of_all_eq {l : List Nat} {m : Nat} (h : ∀ x ∈ l, x = m) :
    l.sum = m * l.length := by
  induction l with
  | nil => simp
  | cons k tl ih =>
    have hk : k = m := h k (List.mem_cons_self k tl)
    have : tl.sum = m * tl.length := ih (fun x hx => h x (List.mem_cons_of_mem k hx))
    simp [hk, this, Nat.mul_succ, Nat.add_comm]

theorem goodTiling_tail {k : Nat} {tl : List Nat} {m : Nat}
    (h : GoodTiling (k :: tl) m) (hk : k % m = 0) : GoodTiling tl m := by
  intro j hj i hi
  have h2 := h (j + 1) (by simpa using hj) i (by simpa using hi)
  simp only [List.take_succ_cons, List.sum_cons] at h2
  rcases Nat.dvd_of_mod_eq_zero hk with ⟨q, hq⟩
  rw [hq, Nat.add_assoc, Nat.mul_add_mod] at h2
  exact h2

theorem tiling_forces : ∀ (ks : List Nat) (m : Nat), 0 < m →
    m * ks.length ≤ ks.sum → GoodTiling ks m → ∀ k ∈ ks, k = m := by
  intro ks
  induction ks with
  | nil => intro m _ _ _ k hk; simp at hk
  | cons k tl ih =>
    intro m hm hsum hgt k' hk'
    have hsum' : m * tl.length + m ≤ k + tl.sum := by
      rw [List.length_cons, Nat.mul_succ] at hsum
      simpa using hsum
    have hk_le : k ≤ m := by
      by_contra hgt'
      have hmk : m < k := Nat.lt_of_not_le hgt'
      have := hgt 0 (by simp) m (by simpa using hmk)
      simp [Nat.mod_self] at this
      omega
    rcases Nat.lt_or_ge k m with hklt | hge
    · -- k < m: impossible
      exfalso
      have hk0 : k = 0 := by
        have hpos : 0 < tl.sum := by omega
        rcases firstPos tl hpos with ⟨j, hj, hjpos, hjsum⟩
        have := hgt (j + 1) (by simpa using hj) 0 (by simpa using hjpos)
        simp only [List.take_succ_cons, List.sum_cons, hjsum, Nat.add_zero] at this
        rw [Nat.mod_eq_of_lt hklt] at this
        exact this
      subst hk0
      have htl : GoodTiling tl m := goodTiling_tail hgt (Nat.zero_mod m)
      have hall : ∀ x ∈ tl, x = m := ih m hm (by omega) htl
      have := sum_of_all_eq hall
      omega
    · -- k = m
      have hk_eq : k = m := Nat.le_antisymm hk_le hge
      subst hk_eq
      have htl : GoodTiling tl k := goodTiling_tail hgt (Nat.mod_self k)
      rcases List.mem_cons.mp hk' with h | h
      · exact h
      · exact ih k hm (by omega) htl k' h

/-! ## GoodIdx of per-run index assignments -/

theorem map_own_constant {runs : List (List Row)} (hc : RunsConstant runs) :
    RunsConstant (runs.map (fun g => List.zipWith Row.setInd g (List.range g.length))) := by
  intro h hh x hx y hy
  rcases List.mem_map.mp hh with ⟨g, hg, rfl⟩
  rcases mem_zipSet hx with ⟨x', hx', i, rfl⟩
  rcases mem_zipSet hy with ⟨y', hy', j, rfl⟩
  exact hc g hg x' hx' y' hy'

theorem map_own_disj {runs : List (List Row)} (hd : RunsDisj runs) :
    RunsDisj (runs.map (fun g => List.zipWith Row.setInd g (List.range g.length))) := by
  rw [RunsDisj, List.pairwise_map]
  refine hd.imp ?_
  intro g h hgh x hx y hy
  rcases mem_zipSet hx with ⟨x', hx', i, rfl⟩
  rcases mem_zipSet hy with ⟨y', hy', j, rfl⟩
  exact hgh x' hx' y' hy'

theorem chunk_own_ne_nil {g : List Row} (hg : g ≠ []) :
    List.zipWith Row.setInd g (List.range g.length) ≠ [] := by
  have h1 : (List.zipWith Row.setInd g (List.range g.length)).length = g.length := by
    rw [List.length_zipWith, List.length_range]
    omega
  intro h
  apply hg
  have := congrArg List.length h
  rw [h1] at this
  exact List.length_eq_zero.mp this

theorem goodIdx_of_own_ranges {runs : List (List Row)} (hc : RunsConstant runs)
    (hd : RunsDisj runs) :
    GoodIdx ((runs.map (fun g => List.zipWith Row.setInd g (List.range g.length))).flatten) := by
  intro f
  by_cases hex : ∃ g ∈ runs, ∃ x ∈ g, x.fish = f
  · obtain ⟨g, hg, x, hx, hxf⟩ := hex
    have hgne : g ≠ [] := List.ne_nil_of_mem hx
    set chunk := List.zipWith Row.setInd g (List.range g.length) with hchunk
    have hmem : chunk ∈ runs.map (fun g => List.zipWith Row.setInd g (List.range g.length)) :=
      List.mem_map_of_mem _ hg
    obtain ⟨y, hy⟩ := List.exists_mem_of_ne_nil chunk (chunk_own_ne_nil hgne)
    have hyf : y.fish = f := by
      rcases mem_zipSet hy with ⟨x', hx', i, rfl⟩
      rw [setInd_fish]
      rw [← hxf]
      exact hc g hg x' hx' x hx
    have hid : byFish ((runs.map
        (fun g => List.zipWith Row.setInd g (List.range g.length))).flatten) y.fish = chunk :=
      byFish_flatten_of_mem (map_own_constant hc) (map_own_disj hd) hmem hy
    rw [← hyf, hid]
    rw [hchunk, zipSet_map_zeit_ind]
    rw [List.length_zipWith, List.length_range]
    simp [List.take_of_length_le]
  · push_neg at hex
    have hnil : byFish ((runs.map
        (fun g => List.zipWith Row.setInd g (List.range g.length))).flatten) f = [] := by
      refine byFish_flatten_of_forall_ne ?_
      intro h hh y hy
      rcases List.mem_map.mp hh with ⟨g, hg, rfl⟩
      rcases mem_zipSet hy with ⟨x', hx', i, rfl⟩
      rw [setInd_fish]
      exact hex g hg x' hx'
    rw [hnil]
    rfl

theorem zeitSorted_of_own_ranges {runs : List (List Row)} (hc : RunsConstant runs)
    (hd : RunsDisj runs)
    (hz : ∀ g ∈ runs, g.Pairwise (fun a b => a.zeit ≤ b.zeit)) :
    ZeitSorted ((runs.map (fun g => List.zipWith Row.setInd g (List.range g.length))).flatten) := by
  intro f
  by_cases hex : ∃ g ∈ runs, ∃ x ∈ g, x.fish = f
  · obtain ⟨g, hg, x, hx, hxf⟩ := hex
    have hgne : g ≠ [] := List.ne_nil_of_mem hx
    set chunk := List.zipWith Row.setInd g (List.range g.length) with hchunk
    have hmem : chunk ∈ runs.map (fun g => List.zipWith Row.setInd g (List.range g.length)) :=
      List.mem_map_of_mem _ hg
    obtain ⟨y, hy⟩ := List.exists_mem_of_ne_nil chunk (chunk_own_ne_nil hgne)
    have hyf : y.fish = f := by
      rcases mem_zipSet hy with ⟨x', hx', i, rfl⟩
      rw [setInd_fish, ← hxf]
      exact hc g hg x' hx' x hx
    have hid : byFish ((runs.map
        (fun g => List.zipWith Row.setInd g (List.range g.length))).flatten) y.fish = chunk :=
      byFish_flatten_of_mem (map_own_constant hc) (map_own_disj hd) hmem hy
    rw [← hyf, hid]
    exact zipSet_pairwise (fun a b i j h => h) (hz g hg)
  · push_neg at hex
    have hnil : byFish ((runs.map
        (fun g => List.zipWith Row.setInd g (List.range g.length))).flatten) f = [] := by
      refine byFish_flatten_of_forall_ne ?_
      intro h hh y hy
      rcases List.mem_map.mp hh with ⟨g, hg, rfl⟩
      rcases mem_zipSet hy with ⟨x', hx', i, rfl⟩
      rw [setInd_fish]
      exact hex g hg x' hx'
    rw [hnil]
    simp

/-! ## Extraction of label segments from a well-indexed table -/

theorem sum_take_getD_le : ∀ (ks : List Nat) (j : Nat), j < ks.length →
    (ks.take j).sum + ks.getD j 0 ≤ ks.sum := by
  intro ks
  induction ks with
  | nil => intro j h; simp at h
  | cons k tl ih =>
    intro j hj
    cases j with
    | zero => simp
    | succ j' =>
      have := ih j' (by simpa using hj)
      simp only [List.take_succ_cons, List.sum_cons, List.getD_cons_succ]
      omega

theorem seg_of_goodIdx : ∀ (runs : List (List Row)) (labs : List Nat),
    RunsConstant runs → RunsDisj runs → runs.flatten.length = labs.length →
    GoodIdx (List.zipWith Row.setInd runs.flatten labs) →
    ∀ j, j < runs.length → ∀ i, i < (runs.getD j []).length →
      labs.getD (((runs.map List.length).take j).sum + i) 0 = i := by
  intro runs
  induction runs with
  | nil => intro labs _ _ _ _ j hj; simp at hj
  | cons g gs ih =>
    intro labs hc hd hlen hgood j hj i hi
    have hglen : g.length ≤ labs.length := by
      rw [← hlen, List.flatten_cons, List.length_append]
      exact Nat.le_add_right _ _
    have htklen : (labs.take g.length).length = g.length := by
      rw [List.length_take]
      exact Nat.min_eq_left hglen
    have hsplit : List.zipWith Row.setInd (g :: gs).flatten labs =
        List.zipWith Row.setInd g (labs.take g.length) ++
          List.zipWith Row.setInd gs.flatten (labs.drop g.length) := by
      rw [List.flatten_cons]
      conv_lhs => rw [← List.take_append_drop g.length labs]
      exact List.zipWith_append _ _ _ _ _ htklen.symm
    rcases List.pairwise_cons.mp hd with ⟨hhead, htail⟩
    cases j with
    | zero =>
      simp only [List.getD_cons_zero] at hi
      obtain ⟨x₀, hx₀⟩ := List.exists_mem_of_ne_nil g
        (by intro h; rw [h] at hi; simp at hi)
      have hchunkid : byFish (List.zipWith Row.setInd (g :: gs).flatten labs) x₀.fish =
          List.zipWith Row.setInd g (labs.take g.length) := by
        rw [hsplit, byFish_append]
        have h1 : byFish (List.zipWith Row.setInd g (labs.take g.length)) x₀.fish =
            List.zipWith Row.setInd g (labs.take g.length) := by
          refine byFish_eq_self ?_
          intro y hy
          rcases mem_zipSet hy with ⟨x', hx', i', rfl⟩
          rw [setInd_fish]
          exact hc g (List.mem_cons_self g gs) x' hx' x₀ hx₀
        have h2 : byFish (List.zipWith Row.setInd gs.flatten (labs.drop g.length)) x₀.fish
            = [] := by
          refine byFish_eq_nil ?_
          intro y hy
          rcases mem_zipSet hy with ⟨y', hy', i', rfl⟩
          rw [setInd_fish]
          rcases List.mem_flatten.mp hy' with ⟨h', hh', hyh⟩
          exact fun he => hhead h' hh' x₀ hx₀ y' hyh he.symm
        rw [h1, h2, List.append_nil]
      have hgg := hgood x₀.fish
      rw [hchunkid, zipSet_map_zeit_ind, List.length_zipWith, htklen, Nat.min_self,
        List.take_take, Nat.min_self] at hgg
      simp only [List.take_zero, List.sum_nil, Nat.zero_add]
      rw [← getD_take hi, hgg, getD_range hi]
    | succ j' =>
      have hglen2 : gs.flatten.length = (labs.drop g.length).length := by
        rw [List.length_drop, ← hlen, List.flatten_cons, List.length_append]
        omega
      have hgood' : GoodIdx (List.zipWith Row.setInd gs.flatten (labs.drop g.length)) := by
        intro f
        by_cases hex : ∃ y ∈ List.zipWith Row.setInd gs.flatten (labs.drop g.length),
            y.fish = f
        · obtain ⟨y, hy, hyf⟩ := hex
          have h1 : byFish (List.zipWith Row.setInd g (labs.take g.length)) f = [] := by
            refine byFish_eq_nil ?_
            intro z hz
            rcases mem_zipSet hz with ⟨z', hz', i', rfl⟩
            rw [setInd_fish]
            rcases mem_zipSet hy with ⟨y', hy', i'', rfl⟩
            rw [setInd_fish] at hyf
            rcases List.mem_flatten.mp hy' with ⟨h', hh', hyh⟩
            rw [← hyf]
            exact hhead h' hh' z' hz' y' hyh
          have := hgood f
          rw [hsplit, byFish_append, h1, List.nil_append] at this
          exact this
        · push_neg at hex
          have : byFish (List.zipWith Row.setInd gs.flatten (labs.drop g.length)) f = [] :=
            byFish_eq_nil (fun y hy => hex y hy)
          rw [this]
          rfl
      have := ih (labs.drop g.length) (fun g' hg' => hc g' (List.mem_cons_of_mem g hg'))
        htail hglen2 hgood' j' (by simpa using hj) i (by simpa using hi)
      rw [getD_drop] at this
      simp only [List.map_cons, List.take_succ_cons, List.sum_cons]
      rw [Nat.add_assoc]
      exact this

/-! ## retainedRun lemmas -/

theorem retRow_fish (g : List Row) (win : Nat) (pr : Nat × Row) :
    (retRow g win pr).fish = pr.2.fish := rfl

theorem retRow_zeit (g : List Row) (win : Nat) (pr : Nat × Row) :
    (retRow g win pr).zeit = pr.2.zeit := rfl

theorem mem_retainedRun {start win : Nat} {g : List Row} {y : Row} :
    y ∈ retainedRun start win g ↔
      ∃ p x, g[p]? = some x ∧ keepPos start win g.length p = true ∧
        y = retRow g win (p, x) := by
  rw [retainedRun]
  simp only [List.mem_map, List.mem_filter]
  constructor
  · rintro ⟨⟨p, x⟩, ⟨hmem, hkeep⟩, rfl⟩
    exact ⟨p, x, List.mem_enum_iff_getElem?.mp hmem, hkeep, rfl⟩
  · rintro ⟨p, x, hget, hkeep, rfl⟩
    exact ⟨(p, x), ⟨List.mem_enum_iff_getElem?.mpr hget, hkeep⟩, rfl⟩

theorem retainedRun_fish_of_mem {start win : Nat} {g : List Row} {y : Row}
    (hy : y ∈ retainedRun start win g) : ∃ x ∈ g, y.fish = x.fish := by
  rcases mem_retainedRun.mp hy with ⟨p, x, hget, _, rfl⟩
  exact ⟨x, List.getElem?_mem hget, rfl⟩

theorem retainedRun_length (start win : Nat) (g : List Row) :
    (retainedRun start win g).length =
      ((List.range g.length).filter (keepPos start win g.length)).length := by
  rw [retainedRun, List.length_map]
  calc (List.filter (fun pr => keepPos start win g.length pr.1) g.enum).length
      = List.countP (fun pr => keepPos start win g.length pr.1) g.enum :=
        (List.countP_eq_length_filter _ _).symm
    _ = List.countP (keepPos start win g.length) (g.enum.map Prod.fst) := by
        rw [List.countP_map]
        rfl
    _ = List.countP (keepPos start win g.length) (List.range g.length) := by
        rw [List.enum_map_fst]
    _ = ((List.range g.length).filter (keepPos start win g.length)).length :=
        List.countP_eq_length_filter _ _

theorem retainedRun_length_congr {start win : Nat} {g h : List Row}
    (hl : g.length = h.length) :
    (retainedRun start win g).length = (retainedRun start win h).length := by
  rw [retainedRun_length, retainedRun_length, hl]

theorem retained_constant {runs : List (List Row)} (hc : RunsConstant runs)
    (start win : Nat) : RunsConstant (runs.map (retainedRun start win)) := by
  intro h hh x hx y hy
  rcases List.mem_map.mp hh with ⟨g, hg, rfl⟩
  rcases retainedRun_fish_of_mem hx with ⟨x', hx', hxf⟩
  rcases retainedRun_fish_of_mem hy with ⟨y', hy', hyf⟩
  rw [hxf, hyf]
  exact hc g hg x' hx' y' hy'

theorem retained_disj {runs : List (List Row)} (hd : RunsDisj runs)
    (start win : Nat) : RunsDisj (runs.map (retainedRun start win)) := by
  rw [RunsDisj, List.pairwise_map]
  refine hd.imp ?_
  intro g h hgh x hx y hy
  rcases retainedRun_fish_of_mem hx with ⟨x', hx', hxf⟩
  rcases retainedRun_fish_of_mem hy with ⟨y', hy', hyf⟩
  rw [hxf, hyf]
  exact hgh x' hx' y' hy'

theorem pairwise_enumFrom {P : Row → Row → Prop} :
    ∀ {g : List Row} {n : Nat}, g.Pairwise P →
      (g.enumFrom n).Pairwise (fun a b => P a.2 b.2) := by
  intro g
  induction g with
  | nil => intro n _; simp
  | cons x t ih =>
    intro n h
    rcases List.pairwise_cons.mp h with ⟨hhead, htail⟩
    rw [List.enumFrom_cons]
    refine List.pairwise_cons.mpr ⟨?_, ih htail⟩
    rintro ⟨i, b⟩ hb
    rcases List.mem_enumFrom hb with ⟨h1, h2, h3⟩
    refine hhead b ?_
    rw [h3]
    exact List.getElem_mem _

theorem retainedRun_pairwise_zeit {g : List Row} (start win : Nat)
    (h : g.Pairwise (fun a b => a.zeit ≤ b.zeit)) :
    (retainedRun start win g).Pairwise (fun a b => a.zeit ≤ b.zeit) := by
  rw [retainedRun, List.pairwise_map]
  refine List.Pairwise.filter _ ?_
  exact (pairwise_enumFrom h).imp (fun hab => hab)

/-! ## resample branch views -/

theorem resample_none_of_runs_nil {df : List Row} (win : Nat)
    (h : fishRuns (sortRows df) = []) : resample df win = none := by
  simp only [resample, h, List.head?_nil]

theorem resample_one_eq {df : List Row} {g0 : List Row} {gs : List (List Row)}
    (h : fishRuns (sortRows df) = g0 :: gs) :
    resample df 1 =
      if (tile g0.length (gs.length + 1)).length = (sortRows df).length
      then some (List.zipWith Row.setInd (sortRows df) (tile g0.length (gs.length + 1)))
      else none := by
  simp only [resample, h, List.head?_cons, List.length_cons, if_pos]

theorem resample_win_eq {df : List Row} {win : Nat} (hw : 2 ≤ win)
    {g0 : List Row} {gs : List (List Row)}
    (h : fishRuns (sortRows df) = g0 :: gs) :
    resample df win =
      match firstDiff (g0.map Row.light) with
      | none => none
      | some t =>
        if (tile ((((g0 :: gs).map (retainedRun (win + t % win) win)).flatten.length
              / (gs.length + 1))) (gs.length + 1)).length =
            ((g0 :: gs).map (retainedRun (win + t % win) win)).flatten.length then
          some (List.zipWith Row.setInd
            (((g0 :: gs).map (retainedRun (win + t % win) win)).flatten)
            (tile ((((g0 :: gs).map (retainedRun (win + t % win) win)).flatten.length
              / (gs.length + 1))) (gs.length + 1)))
        else none := by
  have h1 : win ≠ 1 := by omega
  have h0 : win ≠ 0 := by omega
  simp only [resample, h, List.head?_cons, if_neg h1, if_neg h0, List.length_cons]

theorem resample_zero (df : List Row) : resample df 0 = none := by
  cases h : fishRuns (sortRows df) with
  | nil => exact resample_none_of_runs_nil 0 h
  | cons g0 gs => simp [resample, h]

theorem resample_one_inv {df : List Row} {t : List Row}
    (h : resample df 1 = some t) :
    ∃ g0 gs, fishRuns (sortRows df) = g0 :: gs ∧
      (tile g0.length (gs.length + 1)).length = (sortRows df).length ∧
      t = List.zipWith Row.setInd (sortRows df) (tile g0.length (gs.length + 1)) := by
  cases hfr : fishRuns (sortRows df) with
  | nil => rw [resample_none_of_runs_nil 1 hfr] at h; exact absurd h (by simp)
  | cons g0 gs =>
    rw [resample_one_eq hfr] at h
    by_cases hc : (tile g0.length (gs.length + 1)).length = (sortRows df).length
    · rw [if_pos hc] at h
      exact ⟨g0, gs, rfl, hc, (Option.some_injective _ h).symm⟩
    · rw [if_neg hc] at h
      exact absurd h (by simp)

theorem resample_win_inv {df : List Row} {win : Nat} {t : List Row}
    (hw : 2 ≤ win) (h : resample df win = some t) :
    ∃ g0 gs t0, fishRuns (sortRows df) = g0 :: gs ∧
      firstDiff (g0.map Row.light) = some t0 ∧
      (tile ((((g0 :: gs).map (retainedRun (win + t0 % win) win)).flatten.length
          / (gs.length + 1))) (gs.length + 1)).length =
        ((g0 :: gs).map (retainedRun (win + t0 % win) win)).flatten.length ∧
      t = List.zipWith Row.setInd
        (((g0 :: gs).map (retainedRun (win + t0 % win) win)).flatten)
        (tile ((((g0 :: gs).map (retainedRun (win + t0 % win) win)).flatten.length
          / (gs.length + 1))) (gs.length + 1)) := by
  cases hfr : fishRuns (sortRows df) with
  | nil => rw [resample_none_of_runs_nil win hfr] at h; exact absurd h (by simp)
  | cons g0 gs =>
    rw [resample_win_eq hw hfr] at h
    cases hfd : firstDiff (g0.map Row.light) with
    | none => rw [hfd] at h; exact absurd h (by simp)
    | some t0 =>
      rw [hfd] at h
      dsimp only at h
      by_cases hc : (tile ((((g0 :: gs).map (retainedRun (win + t0 % win) win)).flatten.length
          / (gs.length + 1))) (gs.length + 1)).length =
          ((g0 :: gs).map (retainedRun (win + t0 % win) win)).flatten.length
      · rw [if_pos hc] at h
        exact ⟨g0, gs, t0, rfl, hfd, hc, (Option.some_injective _ h).symm⟩
      · rw [if_neg hc] at h
        exact absurd h (by simp)

/-- Within one run of a table sorted by (fish, zeit), zeit is non-decreasing. -/
theorem run_zeit_sorted {l : List Row} (hs : l.Pairwise KeyLe) {g : List Row}
    (hg : g ∈ fishRuns l) : g.Pairwise (fun a b => a.zeit ≤ b.zeit) := by
  have hkey : g.Pairwise KeyLe := fishRuns_pairwise hs hg
  refine List.Pairwise.imp_of_mem ?_ hkey
  intro a b ha hb hab
  rcases hab with h | ⟨_, h⟩
  · exact absurd (fishRuns_const hg a ha ▸ fishRuns_const hg b hb ▸ rfl)
      (Nat.ne_of_lt h)
  · exact h

theorem getD_map_length {runs : List (List Row)} {j : Nat} (h : j < runs.length) :
    (runs.map List.length).getD j 0 = (runs.getD j []).length := by
  rw [List.getD_eq_getElem?_getD, List.getD_eq_getElem?_getD, List.getElem?_map]
  rw [List.getElem?_eq_getElem h]
  rfl

/-- Equal per-individual row counts make the tiled `zeit_ind` assignment of
`resample` correct for every individual (and keep rows zeit-sorted per fish). -/
theorem resample_good_of_equal {df : List Row} {win : Nat} {t : List Row}
    (h : resample df win = some t)
    (heq : ∀ g ∈ fishRuns (sortRows df),
      g.length = ((fishRuns (sortRows df)).headD []).length) :
    GoodIdx t ∧ ZeitSorted t := by
  have hconst := fishRuns_constant (sortRows df)
  have hdisj := fishRuns_disj (sortRows_sorted df)
  have hzs : ∀ g ∈ fishRuns (sortRows df), g.Pairwise (fun a b => a.zeit ≤ b.zeit) :=
    fun g hg => run_zeit_sorted (sortRows_sorted df) hg
  rcases Nat.lt_or_ge win 2 with hw | hw
  · interval_cases win
    · rw [resample_zero] at h
      exact absurd h (by simp)
    · rcases resample_one_inv h with ⟨g0, gs, hfr, hchk, rfl⟩
      have heq' : ∀ g ∈ (g0 :: gs), g.length = g0.length := by
        intro g hg
        have h1 := heq g (by rw [hfr]; exact hg)
        rw [hfr] at h1
        exact h1
      have hflat : (g0 :: gs).flatten = sortRows df := by
        rw [← hfr]
        exact fishRuns_flatten _
      have hlen : (g0 :: gs).flatten.length ≤ (tile g0.length (gs.length + 1)).length := by
        rw [hflat, hchk]
      have hstep : List.zipWith Row.setInd (sortRows df) (tile g0.length (gs.length + 1)) =
          ((g0 :: gs).map (fun g => List.zipWith Row.setInd g (List.range g.length))).flatten := by
        rw [← hflat, zipChunks_flatten _ _ hlen]
        congr 1
        have h2 := zipChunks_tile_of_const_len heq'
        simpa using h2
      have hconst' : RunsConstant (g0 :: gs) := hfr ▸ hconst
      have hdisj' : RunsDisj (g0 :: gs) := hfr ▸ hdisj
      constructor
      · rw [hstep]
        exact goodIdx_of_own_ranges hconst' hdisj'
      · rw [hstep]
        exact zeitSorted_of_own_ranges hconst' hdisj' (fun g hg => hzs g (hfr ▸ hg))
  · rcases resample_win_inv hw h with ⟨g0, gs, t0, hfr, hfd, hchk, rfl⟩
    have heq' : ∀ g ∈ (g0 :: gs), g.length = g0.length := by
      intro g hg
      have h1 := heq g (by rw [hfr]; exact hg)
      rw [hfr] at h1
      exact h1
    have hret : ∀ h' ∈ (g0 :: gs).map (retainedRun (win + t0 % win) win),
        h'.length = (retainedRun (win + t0 % win) win g0).length := by
      intro h' hh'
      rcases List.mem_map.mp hh' with ⟨g, hg, rfl⟩
      exact retainedRun_length_congr (heq' g hg)
    have hn : ((g0 :: gs).map (retainedRun (win + t0 % win) win)).length = gs.length + 1 := by
      rw [List.length_map, List.length_cons]
    have hsum : ((g0 :: gs).map (retainedRun (win + t0 % win) win)).flatten.length =
        (retainedRun (win + t0 % win) win g0).length * (gs.length + 1) := by
      rw [List.length_flatten]
      have h2 : ∀ x ∈ (((g0 :: gs).map (retainedRun (win + t0 % win) win)).map List.length),
          x = (retainedRun (win + t0 % win) win g0).length := by
        intro x hx
        rcases List.mem_map.mp hx with ⟨h', hh', rfl⟩
        exact hret h' hh'
      rw [sum_of_all_eq h2, List.length_map, hn]
    have hm : ((g0 :: gs).map (retainedRun (win + t0 % win) win)).flatten.length
        / (gs.length + 1) = (retainedRun (win + t0 % win) win g0).length := by
      rw [hsum]
      exact Nat.mul_div_cancel _ (Nat.succ_pos _)
    have hlen : ((g0 :: gs).map (retainedRun (win + t0 % win) win)).flatten.length ≤
        (tile (((g0 :: gs).map (retainedRun (win + t0 % win) win)).flatten.length
          / (gs.length + 1)) (gs.length + 1)).length := by
      rw [hchk]
    have hstep : List.zipWith Row.setInd
        (((g0 :: gs).map (retainedRun (win + t0 % win) win)).flatten)
        (tile (((g0 :: gs).map (retainedRun (win + t0 % win) win)).flatten.length
          / (gs.length + 1)) (gs.length + 1)) =
        (((g0 :: gs).map (retainedRun (win + t0 % win) win)).map
          (fun g => List.zipWith Row.setInd g (List.range g.length))).flatten := by
      rw [zipChunks_flatten _ _ hlen]
      congr 1
      have h2 := zipChunks_tile_of_const_len hret
      rw [hm, ← hn]
      exact h2
    have hconst' : RunsConstant ((g0 :: gs).map (retainedRun (win + t0 % win) win)) :=
      retained_constant (hfr ▸ hconst) _ _
    have hdisj' : RunsDisj ((g0 :: gs).map (retainedRun (win + t0 % win) win)) :=
      retained_disj (hfr ▸ hdisj) _ _
    constructor
    · rw [hstep]
      exact goodIdx_of_own_ranges hconst' hdisj'
    · rw [hstep]
      refine zeitSorted_of_own_ranges hconst' hdisj' ?_
      intro g hg
      rcases List.mem_map.mp hg with ⟨g', hg', rfl⟩
      exact retainedRun_pairwise_zeit _ _ (hzs g' (hfr ▸ hg'))

/-- Conversely, if the tiled assignment of `resample` yields a per-individual
index that is correct for every individual, the group sizes must all equal the
tile size. -/
theorem forced_equal_of_good {runs : List (List Row)} {m : Nat}
    (hc : RunsConstant runs) (hd : RunsDisj runs) (hm : 0 < m)
    (hlen : (tile m runs.length).length = runs.flatten.length)
    (hgood : GoodIdx (List.zipWith Row.setInd runs.flatten (tile m runs.length))) :
    ∀ g ∈ runs, g.length = m := by
  have hsum : (runs.map List.length).sum = runs.length * m := by
    rw [← List.length_flatten, ← hlen, length_tile]
  have hgt : GoodTiling (runs.map List.length) m := by
    intro j hj i hi
    rw [List.length_map] at hj
    rw [getD_map_length hj] at hi
    have hseg := seg_of_goodIdx runs (tile m runs.length) hc hd hlen.symm hgood j hj i hi
    have hbound : ((runs.map List.length).take j).sum + i < runs.length * m := by
      have h1 := sum_take_getD_le (runs.map List.length) j (by rw [List.length_map]; exact hj)
      rw [getD_map_length hj, hsum] at h1
      omega
    rw [getD_tile hbound] at hseg
    exact hseg
  have hforce := tiling_forces (runs.map List.length) m hm
    (by rw [hsum, List.length_map, Nat.mul_comm]) hgt
  intro g hg
  exact hforce g.length (List.mem_map_of_mem List.length hg)

/-! ## Loader helper lemmas -/

theorem mapM_extract_isSome : ∀ {rows : List ARow},
    (∀ r ∈ rows, (extractId r.loc).isSome) →
    (rows.mapM (fun r => (extractId r.loc).map (fun f => (f, r)))).isSome := by
  intro rows
  induction rows with
  | nil =>
    intro _
    rw [List.mapM_nil]
    rfl
  | cons r rs ih =>
    intro h
    rw [List.mapM_cons]
    have h1 : (extractId r.loc).isSome := h r (List.mem_cons_self r rs)
    rcases Option.isSome_iff_exists.mp h1 with ⟨f, hf⟩
    have h2 := ih (fun r' hr' => h r' (List.mem_cons_of_mem r hr'))
    rcases Option.isSome_iff_exists.mp h2 with ⟨l, hl⟩
    rw [hf, hl]
    simp

theorem mapM_extract_filter : ∀ {gt : List GRow} {rows : List ARow}
    {l : List (Nat × ARow)},
    rows.mapM (fun r => (extractId r.loc).map (fun f => (f, r))) = some l →
    (l.filter (fun p => (gtFishes gt).contains p.1)).map Prod.snd = keptA gt rows := by
  intro gt rows
  induction rows with
  | nil =>
    intro l h
    rw [List.mapM_nil] at h
    have : l = [] := (Option.some_injective _ h).symm
    subst this
    rfl
  | cons r rs ih =>
    intro l h
    rw [List.mapM_cons] at h
    cases hf : extractId r.loc with
    | none => rw [hf] at h; exact absurd h (by simp)
    | some f =>
      rw [hf] at h
      cases hl : rs.mapM (fun r => (extractId r.loc).map (fun f => (f, r))) with
      | none => rw [hl] at h; exact absurd h (by simp)
      | some l' =>
        rw [hl] at h
        simp at h
        subst h
        rw [keptA]
        simp only [List.filter_cons, hf]
        have htail : (List.filter (fun p => (gtFishes gt).contains p.1) l').map Prod.snd
            = keptA gt rs := ih hl
        rw [keptA] at htail
        by_cases hcont : (gtFishes gt).contains f = true
        · rw [if_pos hcont, if_pos hcont, List.map_cons, htail]
        · rw [if_neg hcont, if_neg hcont, htail]

theorem mapM_extract_mem : ∀ {rows : List ARow} {l : List (Nat × ARow)},
    rows.mapM (fun r => (extractId r.loc).map (fun f => (f, r))) = some l →
    ∀ p ∈ l, extractId p.2.loc = some p.1 := by
  intro rows
  induction rows with
  | nil =>
    intro l h p hp
    rw [List.mapM_nil] at h
    have h2 : l = [] := (Option.some_injective _ h).symm
    subst h2
    simp at hp
  | cons r rs ih =>
    intro l h p hp
    rw [List.mapM_cons] at h
    cases hf : extractId r.loc with
    | none => rw [hf] at h; exact absurd h (by simp)
    | some f =>
      rw [hf] at h
      cases hrs : rs.mapM (fun r => (extractId r.loc).map (fun f => (f, r))) with
      | none => rw [hrs] at h; exact absurd h (by simp)
      | some l' =>
        rw [hrs] at h
        simp at h
        subst h
        rcases List.mem_cons.mp hp with h' | h'
        · subst h'
          exact hf
        · exact ih hrs p h'

theorem mem_assignZeitInds {l : List Row} {r : Row} (h : r ∈ assignZeitInds l) :
    ∃ x ∈ l, ∃ i, r = Row.setInd x i := by
  rw [assignZeitInds] at h
  rcases List.mem_flatten.mp h with ⟨chunk, hchunk, hr⟩
  rcases List.mem_map.mp hchunk with ⟨g, hg, rfl⟩
  rcases mem_zipSet hr with ⟨x, hx, i, rfl⟩
  exact ⟨x, (fishRuns_sublist hg).subset hx, i, rfl⟩

theorem load_data_inv {gt : List GRow} {rows : List ARow} {lights_on lights_off : ℚ}
    {dil : Int} {out : List Row} (h : load_data gt rows lights_on lights_off dil = some out) :
    ∃ l, rows.mapM (fun r => (extractId r.loc).map (fun f => (f, r))) = some l ∧
      l.filter (fun p => (gtFishes gt).contains p.1) ≠ [] ∧
      out = assignZeitInds (sortRows
        ((l.filter (fun p => (gtFishes gt).contains p.1)).map
          (fun p => mkARow gt lights_on lights_off dil
            ((l.filter (fun p => (gtFishes gt).contains p.1)).map Prod.snd) p.1 p.2))) := by
  rw [load_data] at h
  cases hm : rows.mapM (fun r => (extractId r.loc).map (fun f => (f, r))) with
  | none => rw [hm] at h; exact absurd h (by simp)
  | some l =>
    rw [hm] at h
    dsimp only at h
    by_cases hne : l.filter (fun p => (gtFishes gt).contains p.1) = []
    · rw [if_pos hne] at h
      exact absurd h (by simp)
    · rw [if_neg hne] at h
      exact ⟨l, rfl, hne, (Option.some_injective _ h).symm⟩

theorem mem_load_data {gt : List GRow} {rows : List ARow} {lights_on lights_off : ℚ}
    {dil : Int} {out : List Row} (h : load_data gt rows lights_on lights_off dil = some out)
    {r : Row} (hr : r ∈ out) :
    ∃ f a, (gtFishes gt).contains f = true ∧ a ∈ keptA gt rows ∧
      extractId a.loc = some f ∧
      r.strip = (mkARow gt lights_on lights_off dil (keptA gt rows) f a).strip := by
  rcases load_data_inv h with ⟨l, hl, -, rfl⟩
  rcases mem_assignZeitInds hr with ⟨x, hx, i, rfl⟩
  have hx' := (sortRows_perm _).subset hx
  rcases List.mem_map.mp hx' with ⟨p, hp, rfl⟩
  rcases List.mem_filter.mp hp with ⟨hpl, hpc⟩
  have hkept := @mapM_extract_filter gt _ _ hl
  refine ⟨p.1, p.2, hpc, ?_, ?_, ?_⟩
  · rw [← hkept]
    exact List.mem_map_of_mem Prod.snd hp
  · exact mapM_extract_mem hl p hpl
  · rw [setInd_strip, hkept]

theorem qfloor_eq_floor (q : ℚ) : qfloor q = ⌊q⌋ := by
  rw [Rat.floor_def]
  rfl

theorem civilDom_small (z : Int) (h1 : 0 ≤ z) (h2 : z ≤ 30) : civilDom z = z + 1 := by
  interval_cases z <;> decide

theorem loadPerl_inv {gt : List GRow} {clocks : List ℚ} {cols : List BCol}
    {out : List BRow} (h : load_perl_processed_activity gt clocks cols = some out) :
    darkToLight clocks ≠ [] ∧
    out = ((cols.filter (fun c => (gtFishes gt).contains c.fish)).map
      (bRowsFor gt clocks)).flatten := by
  by_cases hd : darkToLight clocks = []
  · rw [load_perl_processed_activity, if_pos hd] at h
    exact absurd h (by simp)
  · rw [load_perl_processed_activity, if_neg hd] at h
    exact ⟨hd, (Option.some_injective _ h).symm⟩

theorem mem_loadPerl {gt : List GRow} {clocks : List ℚ} {cols : List BCol}
    {out : List BRow} (h : load_perl_processed_activity gt clocks cols = some out)
    {r : BRow} (hr : r ∈ out) :
    ∃ c ∈ cols, (gtFishes gt).contains c.fish = true ∧ ∃ k, k < clocks.length ∧
      r = ⟨c.fish, lookupG gt c.fish, bDay clocks k,
        decide (clocks.getD k 0 < 14),
        24 * (bDay clocks k : ℚ) + clocks.getD k 0, c.vals.getD k 0⟩ := by
  rcases loadPerl_inv h with ⟨hd, rfl⟩
  rcases List.mem_flatten.mp hr with ⟨chunk, hchunk, hrc⟩
  rcases List.mem_map.mp hchunk with ⟨c, hc, rfl⟩
  rcases List.mem_filter.mp hc with ⟨hcc, hccont⟩
  rcases List.mem_map.mp hrc with ⟨k, hk, rfl⟩
  exact ⟨c, hcc, hccont, k, List.mem_range.mp hk, rfl⟩

/-! ## Component access for stripped rows -/

theorem strip_fish {r s : Row} (h : r.strip = s.strip) : r.fish = s.fish :=
  congrArg Prod.fst h

theorem strip_genotype {r s : Row} (h : r.strip = s.strip) : r.genotype = s.genotype :=
  congrArg (fun p => p.2.1) h

theorem strip_day {r s : Row} (h : r.strip = s.strip) : r.day = s.day :=
  congrArg (fun p => p.2.2.1) h

theorem strip_zeit {r s : Row} (h : r.strip = s.strip) : r.zeit = s.zeit :=
  congrArg (fun p => p.2.2.2.2.1) h

/-! ## Concrete example tables -/

/-! ## fishRuns congruence under equal fish columns -/

theorem fishRuns_fish_congr : ∀ {l₁ l₂ : List Row},
    l₁.map Row.fish = l₂.map Row.fish →
    (fishRuns l₁).map (List.map Row.fish) = (fishRuns l₂).map (List.map Row.fish) := by
  intro l₁
  induction l₁ with
  | nil =>
    intro l₂ h
    cases l₂ with
    | nil => rfl
    | cons r' rs' => simp at h
  | cons r rs ih =>
    intro l₂ h
    cases l₂ with
    | nil => simp at h
    | cons r' rs' =>
      simp only [List.map_cons, List.cons.injEq] at h
      obtain ⟨hf, ht⟩ := h
      have ihh := ih ht
      cases hfr : fishRuns rs with
      | nil =>
        have h2 : fishRuns rs' = [] := by
          rw [hfr] at ihh
          cases h3 : fishRuns rs' with
          | nil => rfl
          | cons a b =>
            rw [h3] at ihh
            simp at ihh
        rw [fishRuns_cons_of_nil r hfr, fishRuns_cons_of_nil r' h2]
        simp [hf]
      | cons g0 gs =>
        cases g0 with
        | nil => exact absurd rfl (fishRuns_ne_nil (hfr ▸ List.mem_cons_self [] gs))
        | cons s tl =>
          rw [hfr] at ihh
          cases h3 : fishRuns rs' with
          | nil =>
            rw [h3] at ihh
            simp at ihh
          | cons g0' gs' =>
            cases g0' with
            | nil => exact absurd rfl (fishRuns_ne_nil (h3 ▸ List.mem_cons_self [] gs'))
            | cons s' tl' =>
              rw [h3] at ihh
              simp only [List.map_cons, List.cons.injEq] at ihh
              obtain ⟨⟨hs, ht2⟩, hgs⟩ := ihh
              rw [fishRuns_cons_of_eq r hfr, fishRuns_cons_of_eq r' h3]
              by_cases hcond : s.fish = r.fish
              · rw [if_pos hcond, if_pos (by rw [← hs, ← hf]; exact hcond)]
                simp only [List.map_cons, List.cons.injEq]
                exact ⟨⟨hf, hs, ht2⟩, hgs⟩
              · rw [if_neg hcond, if_neg (by rw [← hs, ← hf]; exact hcond)]
                simp only [List.map_cons, List.cons.injEq]
                exact ⟨⟨hf, trivial⟩, ⟨hs, ht2⟩, hgs⟩

theorem fishRuns_lengths_congr {l₁ l₂ : List Row}
    (h : l₁.map Row.fish = l₂.map Row.fish) :
    (fishRuns l₁).map List.length = (fishRuns l₂).map List.length := by
  have h2 := congrArg (List.map List.length) (fishRuns_fish_congr h)
  simpa [List.map_map, Function.comp_def] using h2

/-! ## Claims -/

/-- C9: the genotype loader strips a trailing occupancy-count annotation from
each genotype header at the (last) space boundary: `"wildtype n=24"` yields
`"wildtype"`, and a header with no space is kept unchanged. -/
theorem claim_C9 :
    trimLabel "wildtype n=24" = "wildtype" ∧
    ∀ s : String, ' ' ∉ s.toList → trimLabel s = s := by
  constructor
  · decide
  · intro s hs
    have hnone : ∀ l : List Char, ' ' ∉ l → lastSpace l = none := by
      intro l
      induction l with
      | nil => intro _; rfl
      | cons c t ih =>
        intro h
        rw [lastSpace, ih (fun hc => h (List.mem_cons_of_mem c hc))]
        rw [if_neg ?_]
        intro hc
        exact h (hc ▸ List.mem_cons_self c t)
    rw [trimLabel, hnone s.toList hs]

theorem claim_C9_witness : trimLabel "abc" = "abc" :=
  claim_C9.2 "abc" (by decide)

/-- C8: in the Format B loader output, the light flag holds exactly when the
row's clock-hour is strictly below 14.0, and `zeit = 24 * day + clock`. -/
theorem claim_C8 : ∀ (gt : List GRow) (clocks : List ℚ) (cols : List BCol)
    (out : List BRow), load_perl_processed_activity gt clocks cols = some out →
    ∀ r ∈ out, ∃ k, k < clocks.length ∧
      (r.light = true ↔ clocks.getD k 0 < 14) ∧
      r.zeit = 24 * (r.day : ℚ) + clocks.getD k 0 := by
  intro gt clocks cols out h r hr
  rcases mem_loadPerl h hr with ⟨c, hc, hcont, k, hk, rfl⟩
  exact ⟨k, hk, by simp, rfl⟩

theorem claim_C8_witness :
    ∃ k, k < clocksB.length ∧
      ((⟨1, "wt", 1, true, 26, 5⟩ : BRow).light = true ↔ clocksB.getD k 0 < 14) ∧
      (⟨1, "wt", 1, true, 26, 5⟩ : BRow).zeit =
        24 * ((⟨1, "wt", 1, true, 26, 5⟩ : BRow).day : ℚ) + clocksB.getD k 0 :=
  claim_C8 gtB clocksB colsB outB (by decide) ⟨1, "wt", 1, true, 26, 5⟩ (by decide)

/-- C3 (amended): every individual id in either loader's output occurs in the
genotype table and carries that individual's genotype; individuals absent from
the genotype table are dropped without making the loaders fail PROVIDED at
least one row's individual remains after the genotype filter — when no row
survives (e.g. an empty genotype table), the Format A loader errors rather
than returning an empty table; the Format B loader never fails on unmatched
columns. -/
theorem claim_C3 :
    (∀ (gt : List GRow) (rows : List ARow) (lights_on lights_off : ℚ) (dil : Int)
       (out : List Row), load_data gt rows lights_on lights_off dil = some out →
       ∀ r ∈ out, r.fish ∈ gtFishes gt ∧ r.genotype = lookupG gt r.fish) ∧
    (∀ (gt : List GRow) (rows : List ARow) (lights_on lights_off : ℚ) (dil : Int),
       (∀ r ∈ rows, (extractId r.loc).isSome) →
       keptA gt rows ≠ [] →
       (load_data gt rows lights_on lights_off dil).isSome) ∧
    (∀ (gt : List GRow) (clocks : List ℚ) (cols : List BCol) (out : List BRow),
       load_perl_processed_activity gt clocks cols = some out →
       ∀ r ∈ out, r.fish ∈ gtFishes gt ∧ r.genotype = lookupG gt r.fish) ∧
    (∀ (gt : List GRow) (clocks : List ℚ) (cols : List BCol),
       darkToLight clocks ≠ [] →
       (load_perl_processed_activity gt clocks cols).isSome) := by
  refine ⟨?_, ?_, ?_, ?_⟩
  · intro gt rows lights_on lights_off dil out h r hr
    rcases mem_load_data h hr with ⟨f, a, hcont, _, _, hstrip⟩
    have hf : r.fish = f := strip_fish hstrip
    have hg : r.genotype = lookupG gt f := strip_genotype hstrip
    rw [hf, hg]
    exact ⟨List.elem_iff.mp hcont, rfl⟩
  · intro gt rows lights_on lights_off dil h hne
    rw [load_data]
    rcases Option.isSome_iff_exists.mp (mapM_extract_isSome h) with ⟨l, hl⟩
    rw [hl]
    dsimp only
    have hfil : l.filter (fun p => (gtFishes gt).contains p.1) ≠ [] := by
      intro hfe
      apply hne
      rw [← @mapM_extract_filter gt _ _ hl, hfe]
      rfl
    rw [if_neg hfil]
    simp
  · intro gt clocks cols out h r hr
    rcases mem_loadPerl h hr with ⟨c, hc, hcont, k, hk, rfl⟩
    exact ⟨List.elem_iff.mp hcont, rfl⟩
  · intro gt clocks cols h
    rw [load_perl_processed_activity, if_neg h]
    simp

theorem claim_C3_witness :
    ((⟨3, "mutant", 5, true, 0, 0, 1⟩ : Row).fish ∈ gtFishes gtC4 ∧
      (⟨3, "mutant", 5, true, 0, 0, 1⟩ : Row).genotype =
        lookupG gtC4 (⟨3, "mutant", 5, true, 0, 0, 1⟩ : Row).fish) ∧
    (load_perl_processed_activity gtB clocksB colsB).isSome := by
  constructor
  · exact claim_C3.1 gtC4 rowsC4 9 23 5 outC4 (by decide)
      ⟨3, "mutant", 5, true, 0, 0, 1⟩ (by decide)
  · exact claim_C3.2.2.2 gtB clocksB colsB (by decide)

theorem claim_C3_counterexample :
    load_data ([] : List GRow) rowsC4 9 23 5 = none ∧
    rowsC4.all (fun r => (extractId r.loc).isSome) = true :=
  ⟨by decide, by decide⟩

theorem retainedRun_nil_of_short {win t0 : Nat} {g : List Row} (h : g.length < win) :
    retainedRun (win + t0 % win) win g = [] := by
  have hfil : g.enum.filter (fun pr => keepPos (win + t0 % win) win g.length pr.1) = [] := by
    rw [List.filter_eq_nil_iff]
    intro pr hpr hk
    simp only [keepPos, Bool.and_eq_true, decide_eq_true_eq] at hk
    obtain ⟨⟨h1, _⟩, h2⟩ := hk
    have h3 : win ≤ pr.1 := le_trans (Nat.le_add_right win (t0 % win)) h1
    omega
  rw [retainedRun, hfil]
  rfl

/-- C7 (amended): with `window_size > 1`, `resample` fails (an unhandled
index error, no output) when the first individual's series has no light/dark
transition; but when `window_size` exceeds every individual's number of time
points (a transition existing), it does not fail — it returns a table with no
aggregate rows. -/
theorem claim_C7 :
    (∀ (df : List Row) (win : Nat) (g0 : List Row) (gs : List (List Row)),
       2 ≤ win → fishRuns (sortRows df) = g0 :: gs →
       firstDiff (g0.map Row.light) = none → resample df win = none) ∧
    (∀ (df : List Row) (win t0 : Nat) (g0 : List Row) (gs : List (List Row)),
       2 ≤ win → fishRuns (sortRows df) = g0 :: gs →
       firstDiff (g0.map Row.light) = some t0 →
       (∀ g ∈ fishRuns (sortRows df), g.length < win) →
       resample df win = some []) := by
  constructor
  · intro df win g0 gs hw hfr hfd
    rw [resample_win_eq hw hfr, hfd]
  · intro df win t0 g0 gs hw hfr hfd hshort
    rw [resample_win_eq hw hfr, hfd]
    dsimp only
    have hnil : ∀ g ∈ (g0 :: gs), retainedRun (win + t0 % win) win g = [] := by
      intro g hg
      exact retainedRun_nil_of_short (hshort g (hfr ▸ hg))
    have hflat : ((g0 :: gs).map (retainedRun (win + t0 % win) win)).flatten = [] := by
      rw [List.flatten_eq_nil_iff]
      intro l hl
      rcases List.mem_map.mp hl with ⟨g, hg, rfl⟩
      exact hnil g hg
    rw [hflat]
    have htile : tile ((0 : Nat) / (gs.length + 1)) (gs.length + 1) = [] := by
      rw [Nat.zero_div, tile, List.flatten_eq_nil_iff]
      intro l hl
      simpa using List.eq_of_mem_replicate hl
    simp only [List.length_nil, htile]
    simp

theorem claim_C7_counterexample :
    resample exC7 5 = some [] ∧ exC7.length = 3 ∧
      firstDiff ((((fishRuns (sortRows exC7)).headD []).map Row.light)) = some 0 := by
  refine ⟨by decide, by decide, by decide⟩

theorem claim_C7_witness : resample exC7 5 = some [] :=
  claim_C7.2 exC7 5 0 exC7 [] (by decide) (by decide) (by decide) (by decide)

/-- C1: with `window_size > 1` and a light/dark transition at index `t0` of
the first individual's series, every aggregate row `resample` retains sits at
a position `p` congruent to `t0` modulo the window (the right edge is offset
from the transition by a multiple of `window_size`), and its activity is the
sum of the `window_size` consecutive original activity values ending at `p`;
on the §8 example (10 bins, window 5, transition at 3) the output is exactly
one aggregate row with activity `2^4 + ... + 2^8 = 496` at position 8. -/
theorem claim_C1 :
    (∀ (df : List Row) (win t0 : Nat) (t : List Row), 2 ≤ win →
       firstDiff ((((fishRuns (sortRows df)).headD []).map Row.light)) = some t0 →
       resample df win = some t →
       ∀ r ∈ t, ∃ g ∈ fishRuns (sortRows df), ∃ p x, g[p]? = some x ∧
         p % win = t0 % win ∧ win ≤ p + 1 ∧ p + 1 < g.length ∧
         r.fish = x.fish ∧ r.zeit = x.zeit ∧
         r.activity = windowSum g p win ∧
         ((g.take (p + 1)).drop (p + 1 - win)).length = win) ∧
    resample exC1 5 = some [⟨1, "g", 0, true, 8, 0, 496⟩] := by
  constructor
  · intro df win t0 t hw hfd h r hr
    rcases resample_win_inv hw h with ⟨g0, gs, t0', hfr, hfd', hchk, rfl⟩
    rw [hfr] at hfd
    simp only [List.headD_cons] at hfd
    rw [hfd'] at hfd
    have ht0 : t0' = t0 := Option.some_injective _ hfd
    rcases mem_zipSet hr with ⟨k, hk, i, rfl⟩
    rcases List.mem_flatten.mp hk with ⟨chunk, hchunk, hkc⟩
    rcases List.mem_map.mp hchunk with ⟨g, hg, rfl⟩
    rcases mem_retainedRun.mp hkc with ⟨p, x, hget, hkeep, rfl⟩
    simp only [keepPos, Bool.and_eq_true, decide_eq_true_eq] at hkeep
    obtain ⟨⟨h1, h2⟩, h3⟩ := hkeep
    have hwin0 : 0 < win := by omega
    rcases Nat.dvd_of_mod_eq_zero h2 with ⟨q, hq⟩
    have hmod : p % win = t0' % win := by
      have hmlt : t0' % win < win := Nat.mod_lt t0' hwin0
      have hp : p = t0' % win + win * (q + 1) := by
        have hf : win * (q + 1) = win * q + win := by ring
        omega
      rw [hp, Nat.add_mul_mod_self_left]
      exact Nat.mod_eq_of_lt hmlt
    have hplen : p + 1 < g.length := by
      have hgl : 1 ≤ g.length := by
        by_contra hc
        have : g.length = 0 := by omega
        omega
      omega
    refine ⟨g, hfr ▸ hg, p, x, hget, ht0 ▸ hmod, by omega, hplen, rfl, rfl, rfl, ?_⟩
    rw [List.length_drop, List.length_take]
    omega
  · decide

theorem claim_C1_witness :
    ∃ g ∈ fishRuns (sortRows exC1), ∃ p x, g[p]? = some x ∧
      p % 5 = 3 % 5 ∧ 5 ≤ p + 1 ∧ p + 1 < g.length ∧
      (⟨1, "g", 0, true, 8, 0, 496⟩ : Row).fish = x.fish ∧
      (⟨1, "g", 0, true, 8, 0, 496⟩ : Row).zeit = x.zeit ∧
      (⟨1, "g", 0, true, 8, 0, 496⟩ : Row).activity = windowSum g p 5 ∧
      ((g.take (p + 1)).drop (p + 1 - 5)).length = 5 :=
  claim_C1.1 exC1 5 3 [⟨1, "g", 0, true, 8, 0, 496⟩] (by decide) (by decide)
    (by decide) ⟨1, "g", 0, true, 8, 0, 496⟩ (by decide)

/-- C4 (amended): `day_number` is the day-of-month of the epoch datetime
shifted by the anchor-relative timedelta, plus `day_in_the_life - 1`; within
the first 31 days at or after the anchor this equals whole days elapsed plus
`day_in_the_life` — one more than the whole-days-elapsed + day_in_the_life - 1
formula of the claim; on the §8 example the first output row is
(individual 3, "mutant", day 5, light, time_index 0, zeit 0.0). -/
theorem claim_C4 :
    (∀ (lights_on : ℚ) (dil : Int) (rows : List ARow) (r : ARow),
       0 ≤ qfloor (aDelta lights_on rows r / 24) →
       qfloor (aDelta lights_on rows r / 24) ≤ 30 →
       aDay lights_on dil rows r = qfloor (aDelta lights_on rows r / 24) + dil) ∧
    load_data gtC4 rowsC4 9 23 5 = some outC4 := by
  constructor
  · intro lights_on dil rows r h1 h2
    rw [aDay, civilDom_small _ h1 h2]
    ring
  · decide

theorem claim_C4_counterexample :
    load_data gtC4 rowsC4 9 23 5 = some outC4 ∧
    qfloor (aDelta 9 (keptA gtC4 rowsC4) ⟨"c3".toList, 0, 9, 1⟩ / 24) = 0 ∧
    (outC4.headD ⟨0, "", 0, false, 0, 0, 0⟩).day = 5 ∧ ¬ ((5 : Int) = 0 + 5 - 1) := by
  refine ⟨by decide, by decide, by decide, by decide⟩

theorem claim_C4_witness :
    aDay 9 5 rowsC4 ⟨"c3".toList, 0, 9, 1⟩ =
      qfloor (aDelta 9 rowsC4 ⟨"c3".toList, 0, 9, 1⟩ / 24) + 5 :=
  claim_C4.1 9 5 rowsC4 ⟨"c3".toList, 0, 9, 1⟩ (by decide) (by decide)

/-- C5 (amended): `day_number` is non-decreasing in `zeitgeber_time` within an
individual: for the Format B loader whenever clock-hours lie in `[0, 24)`, and
for the Format A loader provided every retained sample lies at or after the
lights-on anchor and within 31 days of it.  (A first-day sample earlier in the
day than `lights_on` gives a negative timedelta, whose day-of-month is 31, so
`day_number` then decreases — see the counterexample.) -/
theorem claim_C5 :
    (∀ (gt : List GRow) (rows : List ARow) (lights_on lights_off : ℚ) (dil : Int)
       (out : List Row), load_data gt rows lights_on lights_off dil = some out →
       (∀ a ∈ keptA gt rows, 0 ≤ aDelta lights_on (keptA gt rows) a ∧
         aDelta lights_on (keptA gt rows) a < 744) →
       ∀ r ∈ out, ∀ s ∈ out, r.fish = s.fish → r.zeit < s.zeit → r.day ≤ s.day) ∧
    (∀ (gt : List GRow) (clocks : List ℚ) (cols : List BCol) (out : List BRow),
       load_perl_processed_activity gt clocks cols = some out →
       (∀ c ∈ clocks, 0 ≤ c ∧ c < 24) →
       ∀ r ∈ out, ∀ s ∈ out, r.fish = s.fish → r.zeit < s.zeit → r.day ≤ s.day) := by
  constructor
  · intro gt rows lights_on lights_off dil out h hbound r hr s hs _ hz
    rcases mem_load_data h hr with ⟨f, a, _, ha, _, hstrip⟩
    rcases mem_load_data h hs with ⟨f', a', _, ha', _, hstrip'⟩
    have hzr := strip_zeit hstrip
    have hzs := strip_zeit hstrip'
    have hdr := strip_day hstrip
    have hds := strip_day hstrip'
    rw [hzr, hzs] at hz
    rw [hdr, hds]
    simp only [mkARow] at hz ⊢
    have htime : aTime a < aTime a' := by linarith
    have hdelta : aDelta lights_on (keptA gt rows) a < aDelta lights_on (keptA gt rows) a' := by
      rw [aDelta, aDelta]
      linarith
    rcases hbound a ha with ⟨hb1, hb2⟩
    rcases hbound a' ha' with ⟨hb1', hb2'⟩
    have hfl : ∀ b : ARow, b ∈ keptA gt rows → 0 ≤ aDelta lights_on (keptA gt rows) b →
        aDelta lights_on (keptA gt rows) b < 744 →
        0 ≤ qfloor (aDelta lights_on (keptA gt rows) b / 24) ∧
        qfloor (aDelta lights_on (keptA gt rows) b / 24) ≤ 30 := by
      intro b _ h1 h2
      rw [qfloor_eq_floor]
      constructor
      · exact Int.floor_nonneg.mpr (div_nonneg h1 (by norm_num))
      · have h3 : ⌊aDelta lights_on (keptA gt rows) b / 24⌋ < (31 : Int) := by
          refine Int.floor_lt.mpr ?_
          push_cast
          linarith
        omega
    rcases hfl a ha hb1 hb2 with ⟨hfa1, hfa2⟩
    rcases hfl a' ha' hb1' hb2' with ⟨hfa1', hfa2'⟩
    rw [aDay, aDay, civilDom_small _ hfa1 hfa2, civilDom_small _ hfa1' hfa2']
    have hdiv : aDelta lights_on (keptA gt rows) a / 24 ≤
        aDelta lights_on (keptA gt rows) a' / 24 := by linarith
    have hmono : qfloor (aDelta lights_on (keptA gt rows) a / 24) ≤
        qfloor (aDelta lights_on (keptA gt rows) a' / 24) := by
      rw [qfloor_eq_floor, qfloor_eq_floor]
      exact Int.floor_mono hdiv
    omega
  · intro gt clocks cols out h hclk r hr s hs _ hz
    rcases mem_loadPerl h hr with ⟨c, hc, _, k, hk, rfl⟩
    rcases mem_loadPerl h hs with ⟨c', hc', _, k', hk', rfl⟩
    simp only at hz ⊢
    by_contra hday
    have hday' : bDay clocks k' < bDay clocks k := by omega
    have hcl : clocks.getD k 0 ∈ clocks := by
      rw [List.getD_eq_getElem?_getD, List.getElem?_eq_getElem hk]
      exact List.getElem_mem _
    have hcl' : clocks.getD k' 0 ∈ clocks := by
      rw [List.getD_eq_getElem?_getD, List.getElem?_eq_getElem hk']
      exact List.getElem_mem _
    rcases hclk _ hcl with ⟨hc1, hc2⟩
    rcases hclk _ hcl' with ⟨hc1', hc2'⟩
    have hcast : (bDay clocks k' : ℚ) + 1 ≤ (bDay clocks k : ℚ) := by
      have : bDay clocks k' + 1 ≤ bDay clocks k := hday'
      exact_mod_cast this
    linarith

theorem claim_C5_counterexample :
    load_data gtC5 rowsC5 9 23 1 =
      some [⟨1, "g", 31, false, 0, 0, 1⟩, ⟨1, "g", 1, true, 3/2, 1, 2⟩] ∧
    ((0 : ℚ) < 3/2 ∧ (1 : Int) < 31) := by
  refine ⟨by decide, by decide⟩

theorem claim_C5_witness :
    (⟨3, "mutant", 5, true, 0, 0, 1⟩ : Row).day ≤
      (⟨3, "mutant", 5, true, 1/12, 1, 2⟩ : Row).day :=
  claim_C5.1 gtC4 rowsC4 9 23 5 outC4 (by decide) (by decide)
    ⟨3, "mutant", 5, true, 0, 0, 1⟩ (by decide)
    ⟨3, "mutant", 5, true, 1/12, 1, 2⟩ (by decide) (by decide) (by decide)

/-- C2 (amended): `time_index` is exactly `0..count-1` per individual, in
ascending `zeitgeber_time` order, after Format A loading unconditionally, and
after resampling (any window) provided all individuals have the same number
of rows; with unequal counts the tiled assignment can mislabel (see the
counterexample). -/
theorem claim_C2 :
    (∀ (gt : List GRow) (rows : List ARow) (lights_on lights_off : ℚ) (dil : Int)
       (out : List Row), load_data gt rows lights_on lights_off dil = some out →
       GoodIdx out ∧ ZeitSorted out) ∧
    (∀ (df : List Row) (win : Nat) (t : List Row), resample df win = some t →
       (∀ g ∈ fishRuns (sortRows df),
         g.length = ((fishRuns (sortRows df)).headD []).length) →
       GoodIdx t ∧ ZeitSorted t) := by
  constructor
  · intro gt rows lights_on lights_off dil out h
    rcases load_data_inv h with ⟨l, hl, -, rfl⟩
    rw [assignZeitInds]
    constructor
    · exact goodIdx_of_own_ranges (fishRuns_constant _) (fishRuns_disj (sortRows_sorted _))
    · exact zeitSorted_of_own_ranges (fishRuns_constant _) (fishRuns_disj (sortRows_sorted _))
        (fun g hg => run_zeit_sorted (sortRows_sorted _) hg)
  · intro df win t h heq
    exact resample_good_of_equal h heq

theorem claim_C2_counterexample :
    ∃ t, resample exC2 2 = some t ∧
      (byFish t 2).map Row.zeit_ind = [1, 0, 1] ∧
      [1, 0, 1] ≠ List.range (byFish t 2).length := by
  refine ⟨[⟨1, "g", 0, true, 2, 0, 2⟩, ⟨2, "g", 0, true, 2, 1, 2⟩,
    ⟨2, "g", 0, true, 4, 0, 2⟩, ⟨2, "g", 0, true, 6, 1, 2⟩], by decide, by decide, by decide⟩

theorem claim_C2_witness : GoodIdx outC4 ∧ ZeitSorted outC4 :=
  claim_C2.1 gtC4 rowsC4 9 23 5 outC4 (by decide)

/-- C10 (amended): `resample` computes the new `time_index` column once and tiles
it across individuals.  With `window_size = 1`, whenever some individual's raw
row count differs from the first's, the assignment raises or mislabels (never
yields a per-individual `0..count-1` index); with `window_size > 1` the same
holds for the per-individual *retained* row counts (unequal raw counts can
coincidentally leave retained counts equal and the output correct, see the
counterexample); correct per-individual indexing is guaranteed under the
equal-count precondition. -/
theorem claim_C10 :
    (∀ (df : List Row) (t : List Row), resample df 1 = some t →
       ¬ (∀ g ∈ fishRuns (sortRows df),
            g.length = ((fishRuns (sortRows df)).headD []).length) →
       ¬ GoodIdx t) ∧
    (∀ (df : List Row) (win t0 : Nat) (t : List Row), 2 ≤ win →
       resample df win = some t →
       firstDiff ((((fishRuns (sortRows df)).headD []).map Row.light)) = some t0 →
       ¬ (∀ g ∈ fishRuns (sortRows df),
            (retainedRun (win + t0 % win) win g).length =
            (retainedRun (win + t0 % win) win
              ((fishRuns (sortRows df)).headD [])).length) →
       ¬ GoodIdx t) ∧
    (∀ (df : List Row) (win : Nat) (t : List Row), resample df win = some t →
       (∀ g ∈ fishRuns (sortRows df),
         g.length = ((fishRuns (sortRows df)).headD []).length) →
       GoodIdx t) := by
  refine ⟨?_, ?_, ?_⟩
  · intro df t h hneq hgood
    rcases resample_one_inv h with ⟨g0, gs, hfr, hchk, rfl⟩
    have hflat : (g0 :: gs).flatten = sortRows df := by
      rw [← hfr]
      exact fishRuns_flatten _
    have hm : 0 < g0.length := by
      have hne := fishRuns_ne_nil (hfr ▸ List.mem_cons_self g0 gs)
      cases g0
      · exact absurd rfl hne
      · simp
    rw [← hflat] at hchk hgood
    have hchk2 : (tile g0.length ((g0 :: gs).length)).length = (g0 :: gs).flatten.length := by
      simpa using hchk
    have hgood2 : GoodIdx (List.zipWith Row.setInd (g0 :: gs).flatten
        (tile g0.length ((g0 :: gs).length))) := by
      simpa using hgood
    have hall := forced_equal_of_good (hfr ▸ fishRuns_constant (sortRows df))
      (hfr ▸ fishRuns_disj (sortRows_sorted df)) hm hchk2 hgood2
    apply hneq
    intro g hg
    rw [hfr] at hg ⊢
    simpa using hall g hg
  · intro df win t0 t hw h hfd hneq hgood
    rcases resample_win_inv hw h with ⟨g0, gs, t0', hfr, hfd', hchk, rfl⟩
    rw [hfr] at hfd
    simp only [List.headD_cons] at hfd
    rw [hfd'] at hfd
    have ht0 : t0' = t0 := Option.some_injective _ hfd
    rw [← ht0] at hneq
    have hn : ((g0 :: gs).map (retainedRun (win + t0' % win) win)).length = gs.length + 1 := by
      rw [List.length_map, List.length_cons]
    by_cases hz : ((g0 :: gs).map (retainedRun (win + t0' % win) win)).flatten.length = 0
    · -- all retained counts are zero, hence all equal: contradiction with hneq
      apply hneq
      intro g hg
      rw [hfr] at hg ⊢
      simp only [List.headD_cons]
      rw [List.length_flatten] at hz
      have hzero : ∀ x ∈ (((g0 :: gs).map (retainedRun (win + t0' % win) win)).map
          List.length), x = 0 := by
        intro x hx
        exact List.sum_eq_zero_iff.mp hz x hx
      have h1 : (retainedRun (win + t0' % win) win g).length = 0 := by
        apply hzero
        exact List.mem_map_of_mem _ (List.mem_map_of_mem _ hg)
      have h2 : (retainedRun (win + t0' % win) win g0).length = 0 := by
        apply hzero
        exact List.mem_map_of_mem _ (List.mem_map_of_mem _ (List.mem_cons_self g0 gs))
      rw [h1, h2]
    · have hmpos : 0 < ((g0 :: gs).map (retainedRun (win + t0' % win) win)).flatten.length
          / (gs.length + 1) := by
        rcases Nat.eq_zero_or_pos (((g0 :: gs).map
            (retainedRun (win + t0' % win) win)).flatten.length / (gs.length + 1)) with h0 | h0
        · exfalso
          rw [length_tile, h0, Nat.mul_zero] at hchk
          exact hz hchk.symm
        · exact h0
      rw [← hn] at hchk hgood
      have hmpos2 : 0 < ((g0 :: gs).map (retainedRun (win + t0' % win) win)).flatten.length
          / ((g0 :: gs).map (retainedRun (win + t0' % win) win)).length := by
        rw [hn]
        exact hmpos
      have hall := forced_equal_of_good
        (retained_constant (hfr ▸ fishRuns_constant (sortRows df)) _ _)
        (retained_disj (hfr ▸ fishRuns_disj (sortRows_sorted df)) _ _)
        hmpos2 hchk hgood
      apply hneq
      intro g hg
      rw [hfr] at hg ⊢
      simp only [List.headD_cons]
      have h1 := hall (retainedRun (win + t0' % win) win g)
        (List.mem_map_of_mem _ hg)
      have h2 := hall (retainedRun (win + t0' % win) win g0)
        (List.mem_map_of_mem _ (List.mem_cons_self g0 gs))
      rw [h1, h2]
  · intro df win t h heq
    exact (resample_good_of_equal h heq).1

theorem claim_C10_counterexample :
    resample exC10 5 = some [⟨1, "g", 0, true, 5, 0, 5⟩, ⟨2, "g", 0, true, 5, 0, 5⟩] ∧
    (∃ g ∈ fishRuns (sortRows exC10),
      g.length ≠ ((fishRuns (sortRows exC10)).headD []).length) ∧
    GoodIdx [⟨1, "g", 0, true, 5, 0, 5⟩, ⟨2, "g", 0, true, 5, 0, 5⟩] := by
  refine ⟨by decide, by decide, ?_⟩
  intro f
  by_cases h1 : f = 1
  · subst h1
    decide
  · by_cases h2 : f = 2
    · subst h2
      decide
    · have hnil : byFish [(⟨1, "g", 0, true, 5, 0, 5⟩ : Row),
          ⟨2, "g", 0, true, 5, 0, 5⟩] f = [] := by
        refine byFish_eq_nil ?_
        intro x hx
        rcases List.mem_cons.mp hx with rfl | hx'
        · exact fun he => h1 he.symm
        · rcases List.mem_cons.mp hx' with rfl | hx''
          · exact fun he => h2 he.symm
          · simp at hx''
      rw [hnil]
      rfl

theorem claim_C10_witness : ¬ GoodIdx tBad :=
  claim_C10.1 exC10bad tBad (by decide) (by decide)

/-- C6 (amended): whenever `resample` with `window_size = 1` returns a table —
as it does in particular when all individuals have the same number of rows —
it preserves every column except the re-derived `time_index`, row for row on
the (fish, zeit)-sorted table and as a multiset of the input, and it is
idempotent; with unequal counts the call need not return a table: on counts
1 and 2 the `zeit_ind` assignment length-mismatches and raises (see the
counterexample). -/
theorem claim_C6 : ∀ (df t : List Row), resample df 1 = some t →
    t.map Row.strip = (sortRows df).map Row.strip ∧
    (t.map Row.strip).Perm (df.map Row.strip) ∧
    resample t 1 = some t := by
  intro df t h
  rcases resample_one_inv h with ⟨g0, gs, hfr, hchk, rfl⟩
  have hslen : (sortRows df).length ≤ (tile g0.length (gs.length + 1)).length :=
    le_of_eq hchk.symm
  have hmapstrip : (List.zipWith Row.setInd (sortRows df)
      (tile g0.length (gs.length + 1))).map Row.strip = (sortRows df).map Row.strip :=
    zipSet_map_strip hslen
  refine ⟨hmapstrip, ?_, ?_⟩
  · rw [hmapstrip]
    exact (sortRows_perm df).map Row.strip
  · have hsorted : (List.zipWith Row.setInd (sortRows df)
        (tile g0.length (gs.length + 1))).Pairwise KeyLe :=
      zipSet_pairwise (fun a b i j hab => hab) (sortRows_sorted df)
    have hsort_t : sortRows (List.zipWith Row.setInd (sortRows df)
        (tile g0.length (gs.length + 1))) = List.zipWith Row.setInd (sortRows df)
        (tile g0.length (gs.length + 1)) := sortRows_of_sorted hsorted
    have hfish : (List.zipWith Row.setInd (sortRows df)
        (tile g0.length (gs.length + 1))).map Row.fish = (sortRows df).map Row.fish :=
      zipSet_map_fish hslen
    have hlc : (fishRuns (List.zipWith Row.setInd (sortRows df)
        (tile g0.length (gs.length + 1)))).map List.length =
        (fishRuns (sortRows df)).map List.length := fishRuns_lengths_congr hfish
    have hzlen : (List.zipWith Row.setInd (sortRows df)
        (tile g0.length (gs.length + 1))).length = (sortRows df).length := by
      rw [List.length_zipWith]
      omega
    cases hfr' : fishRuns (List.zipWith Row.setInd (sortRows df)
        (tile g0.length (gs.length + 1))) with
    | nil =>
      rw [hfr', hfr] at hlc
      simp at hlc
    | cons g0' gs' =>
      rw [hfr', hfr] at hlc
      simp only [List.map_cons, List.cons.injEq] at hlc
      obtain ⟨hlen0, hlentail⟩ := hlc
      have hgs : gs'.length = gs.length := by
        have h2 := congrArg List.length hlentail
        simpa using h2
      have hfrt : fishRuns (sortRows (List.zipWith Row.setInd (sortRows df)
          (tile g0.length (gs.length + 1)))) = g0' :: gs' := by
        rw [hsort_t]
        exact hfr'
      rw [resample_one_eq hfrt, hlen0, hgs, hsort_t]
      rw [if_pos (by rw [hzlen]; exact hchk)]
      rw [zipSet_zipSet]

theorem claim_C6_counterexample : resample exC6bad 1 = none ∧ exC6bad.length = 3 := by
  refine ⟨by decide, by decide⟩

theorem claim_C6_witness :
    tEq.map Row.strip = (sortRows exEq).map Row.strip ∧
    (tEq.map Row.strip).Perm (exEq.map Row.strip) ∧
    resample tEq 1 = some tEq :=
  claim_C6 exEq tEq (by decide)

end Fishviz
